import Mathlib

/-!
Shallow embedding of the Cafe feedback dashboard (`src/data_analysis.py`).

Python strings are modelled as `List Char` (Lean `String` is used at the API
boundary; `String.data` is the underlying character list).  CPython floats are
modelled as exact rationals `Q` (unnormalised `Int`/`Nat` pairs): every value
the script ever parses or compares is a decimal with at most two fractional
digits, so no observable comparison in the script depends on binary-float
rounding.  The pandas pieces the script relies on (`to_numeric`,
`pd.to_datetime`, `groupby`) are modelled at the granularity the script
observes: `to_datetime` is an arbitrary parameter `parseDT` (its success or
failure is all the cleaning logic inspects), `groupby` enumerates keys in
sorted order and aggregates each group, and NaN keys are skipped.
-/

/-- Python regex `\s` / `str.strip()` whitespace, restricted to the ASCII range
(the dataset is ASCII; exotic Unicode whitespace is out of scope). -/
def isPySpace (c : Char) : Bool :=
  c.toNat = 32 || c.toNat = 9 || c.toNat = 10 || c.toNat = 13 ||
  c.toNat = 11 || c.toNat = 12

/-- Regex class `[0-9]`. -/
def isDigitC (c : Char) : Bool := 48 ≤ c.toNat && c.toNat ≤ 57

/-- Regex class `[a-zA-Z']` used by the comment tokenizer (39 is the
apostrophe code point). -/
def isTokC (c : Char) : Bool :=
  (65 ≤ c.toNat && c.toNat ≤ 90) || (97 ≤ c.toNat && c.toNat ≤ 122) ||
  c.toNat = 39

/-- ASCII lowercasing, as `str.lower()` acts on the ASCII letters. -/
def lowerChar (c : Char) : Char :=
  if 65 ≤ c.toNat && c.toNat ≤ 90 then Char.ofNat (c.toNat + 32) else c

/-- Maximal runs of characters satisfying `p` (fuel-indexed so that the kernel
can evaluate it; `runs` below supplies sufficient fuel). -/
def runsF (p : Char → Bool) : Nat → List Char → List (List Char)
  | 0, _ => []
  | _ + 1, [] => []
  | fuel + 1, c :: t =>
    if p c then (c :: t.takeWhile p) :: runsF p fuel (t.dropWhile p)
    else runsF p fuel t

/-- All maximal runs of characters satisfying `p`, in order.  With
`p = isTokC` this is `re.findall(r"[a-zA-Z']+", s)`; with `p = not ∘ isPySpace`
it is Python's `s.split()`. -/
def runs (p : Char → Bool) (l : List Char) : List (List Char) :=
  runsF p l.length l

/-- A character is part of a word for `str.split()` purposes. -/
def wordc (c : Char) : Bool := !isPySpace c

/-- `s.split()` word count of a character list. -/
def wc (l : List Char) : Nat := (runs wordc l).length

/-- `" ".join(words)`. -/
def joinWords : List (List Char) → List Char
  | [] => []
  | [w] => w
  | w :: v :: ws => w ++ ' ' :: joinWords (v :: ws)

/-- Python `str.strip()`: drop leading and trailing whitespace. -/
def pyStrip (l : List Char) : List Char :=
  ((l.dropWhile isPySpace).reverse.dropWhile isPySpace).reverse

/-- `re.sub(r"\s+", " ", s)`: collapse every whitespace run to one space. -/
def collapseWS : List Char → List Char
  | [] => []
  | [c] => if isPySpace c then [' '] else [c]
  | a :: b :: t =>
    if isPySpace a && isPySpace b then collapseWS (b :: t)
    else (if isPySpace a then ' ' else a) :: collapseWS (b :: t)

/-- Location cleaning from `load_data`:
`.astype(str).str.strip().str.replace(r"\s+", " ", regex=True)`. -/
def normalize_location (s : String) : String :=
  String.mk (collapseWS (pyStrip s.data))

/-- Exact rational stand-in for a CPython float (unnormalised). -/
structure Q where
  num : Int
  den : Nat
deriving DecidableEq, Repr

def Q.ofInt (n : Int) : Q := ⟨n, 1⟩

/-- `x <= y` on float stand-ins, by cross multiplication. -/
def Q.le (x y : Q) : Prop := x.num * (y.den : Int) ≤ y.num * (x.den : Int)

/-- `x < y` on float stand-ins, by cross multiplication. -/
def Q.lt (x y : Q) : Prop := x.num * (y.den : Int) < y.num * (x.den : Int)

instance (x y : Q) : Decidable (Q.le x y) :=
  inferInstanceAs (Decidable (_ ≤ _))

instance (x y : Q) : Decidable (Q.lt x y) :=
  inferInstanceAs (Decidable (_ < _))

def Q.add (x y : Q) : Q :=
  ⟨x.num * (y.den : Int) + y.num * (x.den : Int), x.den * y.den⟩

def Q.neg (x : Q) : Q := ⟨-x.num, x.den⟩

def Q.mul (x y : Q) : Q := ⟨x.num * y.num, x.den * y.den⟩

def Q.divNat (x : Q) (k : Nat) : Q := ⟨x.num, x.den * k⟩

/-- Round to the nearest integer (half up); stands in for the rounding done by
CPython's `"%.2f"` formatting, whose exact tie behaviour no claim observes. -/
def Q.round (x : Q) : Int := Int.ediv (2 * x.num + (x.den : Int)) (2 * (x.den : Int))

/-- `df[col].mean()`. -/
def meanQ (l : List Q) : Q := (l.foldl Q.add ⟨0, 1⟩).divNat l.length

/-- Stable ascending insertion by `Q.le` (used for the median). -/
def insertQ (x : Q) : List Q → List Q
  | [] => [x]
  | q :: t => if Q.le q x then q :: insertQ x t else x :: q :: t

def sortQ (l : List Q) : List Q := l.foldl (fun acc x => insertQ x acc) []

/-- `df[col].median()`: middle element, or mean of the two middle ones. -/
def medianQ (l : List Q) : Q :=
  let s := sortQ l
  let k := s.length
  if k = 0 then ⟨0, 1⟩
  else if k % 2 = 1 then s.getD (k / 2) ⟨0, 1⟩
  else ((s.getD (k / 2 - 1) ⟨0, 1⟩).add (s.getD (k / 2) ⟨0, 1⟩)).divNat 2

/-- The decimal digit character for `n % 10`. -/
def digitChar (n : Nat) : Char :=
  match n with
  | 0 => '0' | 1 => '1' | 2 => '2' | 3 => '3' | 4 => '4'
  | 5 => '5' | 6 => '6' | 7 => '7' | 8 => '8' | _ => '9'

/-- Decimal digits of a natural number (fuel-indexed; `natDigits` supplies
sufficient fuel, and the fuel-exhausted branch is unreachable there). -/
def natDigitsF : Nat → Nat → List Char
  | 0, _ => ['0']
  | fuel + 1, n =>
    if n < 10 then [digitChar n] else natDigitsF fuel (n / 10) ++ [digitChar (n % 10)]

/-- Decimal digit string of a natural number, as Python renders an `int`. -/
def natDigits (n : Nat) : List Char := natDigitsF (n + 1) n

/-- Python `f"{x:.2f}"`: sign, integer digits, dot, exactly two fractional
digits. -/
def fmt2 (x : Q) : List Char :=
  let n := Q.round (Q.mul x ⟨100, 1⟩)
  let a := n.natAbs
  (if n < 0 then ['-'] else []) ++ natDigits (a / 100) ++
    '.' :: (if a % 100 < 10 then '0' :: natDigits (a % 100) else natDigits (a % 100))

/-- Numeric value of a digit string. -/
def digitsVal (l : List Char) : Nat := l.foldl (fun a c => a * 10 + (c.toNat - 48)) 0

/-- Unsigned core of CPython `float(s)`: digits with at most one dot and at
least one digit (the script only ever feeds it strings of this shape;
exponents, underscores and `inf`/`nan` words are never produced by the regex
match it parses). -/
def pyFloatCore (l : List Char) : Option Q :=
  let ds := l.takeWhile isDigitC
  let rest := l.drop ds.length
  match rest with
  | [] => if ds.isEmpty then none else some ⟨(digitsVal ds : Int), 1⟩
  | '.' :: fs =>
    if ds.isEmpty && fs.isEmpty then none
    else if fs.all isDigitC then
      some ⟨(digitsVal ds * 10 ^ fs.length + digitsVal fs : Nat), 10 ^ fs.length⟩
    else none
  | _ => none

/-- CPython `float(s)`: optional surrounding whitespace, optional sign, then
the unsigned core.  Returns `none` where `float` raises `ValueError`. -/
def pyFloat (l : List Char) : Option Q :=
  let t := pyStrip l
  match t with
  | '-' :: r => (pyFloatCore r).map Q.neg
  | '+' :: r => pyFloatCore r
  | _ => pyFloatCore t

/-- Greedy `[0-9]{1,3}` — at most the first three digits of the leading digit
run. -/
def lead3 (l : List Char) : List Char := (l.takeWhile isDigitC).take 3

/-- Greedy `(?:,[0-9]{3})*`: consume as many `,ddd` groups as possible,
returning the consumed characters and the remainder. -/
def commaGroups : List Char → List Char × List Char
  | ',' :: a :: b :: c :: r =>
    if isDigitC a && isDigitC b && isDigitC c then
      let (g, r2) := commaGroups r
      (',' :: a :: b :: c :: g, r2)
    else ([], ',' :: a :: b :: c :: r)
  | l => ([], l)

/-- Greedy `(?:\.[0-9]{1,2})?`: an optional dot followed by one or two
digits. -/
def fracPart : List Char → List Char
  | '.' :: a :: b :: _ =>
    if isDigitC a then if isDigitC b then ['.', a, b] else ['.', a]
    else []
  | '.' :: a :: [] => if isDigitC a then ['.', a] else []
  | _ => []

/-- The numeric tail `([0-9]{1,3}(?:,[0-9]{3})*|[0-9]+)(?:\.[0-9]{1,2})?` of
the currency regex, matched at the head of `l`.  The `[0-9]+` alternative is
unreachable in Python's left-to-right alternation (whenever a digit is
present the first alternative already succeeds, and everything after the
group is optional, so the engine never backtracks into it). -/
def numPart (l : List Char) : Option (List Char) :=
  match l with
  | c :: _ =>
    if isDigitC c then
      let d := lead3 l
      let r1 := l.drop d.length
      let (g, r2) := commaGroups r1
      some (d ++ g ++ fracPart r2)
    else none
  | [] => none

/-- Greedy `-?`: the consumed prefix and the remainder. -/
def afterDash (l : List Char) : List Char × List Char :=
  match l with
  | '-' :: t => ([('-' : Char)], t)
  | _ => ([], l)

/-- Greedy `\$?`: the consumed prefix and the remainder. -/
def afterDollar (l : List Char) : List Char × List Char :=
  match l with
  | '$' :: t => ([('$' : Char)], t)
  | _ => ([], l)

/-- Match `-?\$?\s*<numPart>` at the start of `l`, returning the matched text
(`m.group()`).  Taking `-`, `$` and the maximal whitespace run greedily agrees
with Python's backtracking: if the digit check fails after taking an optional
item, it also fails without it, because the character that was taken is
neither whitespace nor a digit. -/
def matchAt (l : List Char) : Option (List Char) :=
  let p1 := afterDash l
  let p2 := afterDollar p1.2
  let ws := p2.2.takeWhile isPySpace
  let r3 := p2.2.dropWhile isPySpace
  match numPart r3 with
  | some d => some (p1.1 ++ p2.1 ++ ws ++ d)
  | none => none

/-- `re.search`: the match at the leftmost position where one exists. -/
def reSearch : List Char → Option (List Char)
  | [] => none
  | c :: t =>
    match matchAt (c :: t) with
    | some m => some m
    | none => reSearch t

/-- `parse_value` from `load_data` (`data_analysis.py:29-43`): `None` for NA
input, else strip, search for the currency pattern, drop `,`/`$` from the
match, parse as a float, and reject values outside `(0, 500]`. -/
def parse_value (x : Option String) : Option Q :=
  match x with
  | none => none
  | some s0 =>
    let s := pyStrip s0.data
    match reSearch s with
    | none => none
    | some m =>
      match pyFloat (m.filter (fun c => !(c = ',' || c = '$'))) with
      | none => none
      | some val =>
        if Q.le val (Q.ofInt 0) ∨ Q.lt (Q.ofInt 500) val then none else some val

/-- `pd.to_numeric(cell, errors="coerce")` on a (possibly missing) string
cell: a parseable number, else null. -/
def to_numeric (x : Option String) : Option Q :=
  match x with
  | none => none
  | some s => pyFloat s.data

/-- The fixed stopword set of `top_words` (`data_analysis.py:60-98`). -/
def stop_words : List String :=
  ["the", "and", "to", "of", "a", "in", "for", "with", "is", "it", "on",
   "my", "our", "at", "are", "was", "be", "have", "has", "that", "they",
   "this", "i", "we", "you", "their", "as", "so", "its", "by", "from",
   "an", "were", "your", "also", "us", "had"]

/-- `re.findall(r"[a-zA-Z']+", c.lower())`. -/
def tokens (l : List Char) : List (List Char) := runs isTokC (l.map lowerChar)

/-- The filter applied to each token: not a stopword and longer than one
character. -/
def qualifies (w : String) : Bool := !stop_words.contains w && 1 < w.length

/-- One counting step: increment `w`'s count, first occurrence appended at the
end (Python dicts preserve insertion order). -/
def bump (l : List (String × Nat)) (w : String) : List (String × Nat) :=
  match l with
  | [] => [(w, 1)]
  | (x, n) :: t => if x = w then (x, n + 1) :: t else (x, n) :: bump t w

/-- The `counts` dict of `top_words` after the counting loops: keys in first
encountered order, values the occurrence counts.  `comments` models the
`Comment` series, `none` being a NaN cell (skipped by `.dropna()`). -/
def word_counts (comments : List (Option String)) : List (String × Nat) :=
  (comments.filterMap id).foldl
    (fun counts c =>
      (tokens c.data).foldl
        (fun cs wl =>
          let w := String.mk wl
          if qualifies w then bump cs w else cs)
        counts)
    []

/-- The stream of qualifying tokens in visit order (a specification-side view
of the counting loops, used to state first-encounter order and counts). -/
def qual_tokens (comments : List (Option String)) : List String :=
  (comments.filterMap id).foldr
    (fun c acc => ((tokens c.data).map String.mk).filter qualifies ++ acc) []

/-- First-occurrence key order: append each word not yet present. -/
def addKeys (ks : List String) : List String → List String
  | [] => ks
  | w :: t => if w ∈ ks then addKeys ks t else addKeys (ks ++ [w]) t

/-- The count stored for `w` in an association list (0 when absent). -/
def lookupCount : List (String × Nat) → String → Nat
  | [], _ => 0
  | (x, n) :: t, w => if x = w then n else lookupCount t w

/-- Stable insertion for descending count order: a new item goes after every
item whose count is at least as large, exactly where Python's stable
`sorted(..., key=count, reverse=True)` leaves it. -/
def insertCount (x : String × Nat) : List (String × Nat) → List (String × Nat)
  | [] => [x]
  | q :: t => if x.2 ≤ q.2 then q :: insertCount x t else x :: q :: t

/-- `sorted(counts.items(), key=lambda x: x[1], reverse=True)`. -/
def sortDesc (l : List (String × Nat)) : List (String × Nat) :=
  l.foldl (fun acc x => insertCount x acc) []

/-- `top_words` (`data_analysis.py:59-110`); the script calls it with the
default `n = 12`. -/
def top_words (comments : List (Option String)) (n : Nat) :
    List String × List Nat :=
  let top_items := (sortDesc (word_counts comments)).take n
  if top_items = [] then ([], [])
  else (top_items.map Prod.fst, top_items.map Prod.snd)

/-- A cleaned feedback record as the aggregation/narrative layer sees a
dataframe row: rating and transaction value survived cleaning, the day name
and date are null when the timestamp failed to parse (dates as day ordinals),
and the comment cell may be NaN. -/
structure Record where
  location : String
  rating : Q
  value : Q
  dayName : Option String
  date : Option Int
  comment : Option String
deriving DecidableEq, Repr

/-- Lexicographic (code point) order on character lists, Python's string
order. -/
def lexLt : List Char → List Char → Bool
  | [], [] => false
  | [], _ :: _ => true
  | _ :: _, [] => false
  | a :: s, b :: t =>
    if a.toNat < b.toNat then true
    else if a.toNat = b.toNat then lexLt s t else false

def insertKey (k : String) : List String → List String
  | [] => [k]
  | x :: t => if lexLt k.data x.data then k :: x :: t else x :: insertKey k t

/-- Ascending sort of group keys (`groupby` sorts its keys). -/
def sortKeys (l : List String) : List String :=
  l.foldl (fun acc k => insertKey k acc) []

/-- Unique values in first-appearance order. -/
def dedupKeys (l : List String) : List String :=
  l.foldl (fun ks k => if ks.contains k then ks else ks ++ [k]) []

/-- The group keys of `df.groupby("Location")`. -/
def loc_keys (df : List Record) : List String :=
  sortKeys (dedupKeys (df.map Record.location))

/-- One row of the `loc_summary` aggregate
(`avg_rating`/`avg_txn`/`count` per location). -/
structure LocAgg where
  loc : String
  avg_rating : Q
  avg_txn : Q
  count : Nat
deriving DecidableEq, Repr

/-- `df.groupby("Location").agg(avg_rating=..., avg_txn=..., count=...)`. -/
def loc_summary (df : List Record) : List LocAgg :=
  (loc_keys df).map fun k =>
    let grp := df.filter fun r => r.location = k
    ⟨k, meanQ (grp.map Record.rating), meanQ (grp.map Record.value), grp.length⟩

/-- `loc_summary[loc_summary["count"] >= 5]` — the at-least-5-records
restriction used by both the narrative and the top-locations chart. -/
def loc_summary_ge5 (df : List Record) : List LocAgg :=
  (loc_summary df).filter fun a => 5 ≤ a.count

/-- Stable insertion for descending mean rating. -/
def insertAggD (x : LocAgg) : List LocAgg → List LocAgg
  | [] => [x]
  | q :: t => if Q.le x.avg_rating q.avg_rating then q :: insertAggD x t else x :: q :: t

def sortAggDesc (l : List LocAgg) : List LocAgg :=
  l.foldl (fun acc x => insertAggD x acc) []

/-- Stable insertion for ascending mean rating. -/
def insertAggA (x : LocAgg) : List LocAgg → List LocAgg
  | [] => [x]
  | q :: t => if Q.le q.avg_rating x.avg_rating then q :: insertAggA x t else x :: q :: t

def sortAggAsc (l : List LocAgg) : List LocAgg :=
  l.foldl (fun acc x => insertAggA x acc) []

/-- `loc_summary.sort_values("avg_rating", ascending=False).head(1)`. -/
def top_loc_1 (df : List Record) : List LocAgg :=
  (sortAggDesc (loc_summary_ge5 df)).take 1

/-- `loc_summary.sort_values("avg_rating").head(1)`. -/
def bottom_loc_1 (df : List Record) : List LocAgg :=
  (sortAggAsc (loc_summary_ge5 df)).take 1

/-- The `top_loc` chart table (`data_analysis.py:264-271`): the script groups
by location again with the same keys, counts and mean ratings, keeps
`count >= 5`, sorts by mean rating descending, and takes the first ten. -/
def top_loc_10 (df : List Record) : List LocAgg :=
  (sortAggDesc (loc_summary_ge5 df)).take 10

/-- Group keys of `df.groupby("DayName")`; NaN day names are dropped. -/
def day_keys (df : List Record) : List String :=
  sortKeys (dedupKeys (df.filterMap Record.dayName))

/-- `day_stats`: mean transaction value per day name. -/
def day_stats (df : List Record) : List (String × Q) :=
  (day_keys df).map fun k =>
    (k, meanQ ((df.filter fun r => r.dayName = some k).map Record.value))

/-- `day_stats["avg_txn"].idxmax() if not day_stats.empty else "the busier
days"` — the first key attaining the maximal mean spend. -/
def busy_day (df : List Record) : List Char :=
  match day_stats df with
  | [] => "the busier days".data
  | h :: t => (t.foldl (fun b x => if Q.lt b.2 x.2 then x else b) h).1.data

/-- `top_loc_text` of `build_narrative`. -/
def top_loc_text (df : List Record) : List Char :=
  match top_loc_1 df with
  | [] => "locations with enough samples".data
  | a :: _ => a.loc.data ++ " (avg rating ".data ++ fmt2 a.avg_rating ++ ")".data

/-- `bottom_loc_text` of `build_narrative`. -/
def bottom_loc_text (df : List Record) : List Char :=
  match bottom_loc_1 df with
  | [] => "locations with enough samples".data
  | a :: _ => a.loc.data ++ " (avg rating ".data ++ fmt2 a.avg_rating ++ ")".data

/-- `", ".join(word_list[:6]) if word_list else "service, coffee"`. -/
def joinCommaSp : List String → List Char
  | [] => []
  | [w] => w.data
  | w :: v :: ws => w.data ++ ", ".data ++ joinCommaSp (v :: ws)

def common_words (ws : List String) : List Char :=
  match ws with
  | [] => "service, coffee".data
  | _ => joinCommaSp (ws.take 6)

/-- First narrative paragraph (`data_analysis.py:150`), with the record
counts and formatted statistics interpolated. -/
def p1txt (nrec base : Nat) (avgR avgT medT : Q) : List Char :=
  "This dashboard combines ".data ++ (natDigits nrec ++
    (" feedback records (out of ".data ++ (natDigits base ++
      (" total). The filtered view currently shows an average rating of ".data ++
        (fmt2 avgR ++
          (" out of 5 with mean spend of \\$".data ++ (fmt2 avgT ++
            (" and median spend of \\$".data ++ (fmt2 medT ++
              ", anchoring both satisfaction and revenue outcomes for the same customers.".data)))))))))

/-- Second narrative paragraph (`data_analysis.py:151`). -/
def p2txt (df : List Record) : List Char :=
  "Locations with enough feedback reveal variation worth attention: the current top performer on satisfaction is ".data ++
    (top_loc_text df ++
      (", while ".data ++
        (bottom_loc_text df ++
          (" is the laggard. Ratings and spend move together modestly, suggesting experience improvements can drive ticket size. ".data ++
            (busy_day df ++
              " show the highest average ticket in this filtered view; scheduling stronger teams there could lift both throughput and sentiment.".data)))))

/-- Third narrative paragraph (`data_analysis.py:152`). -/
def p3txt (ws : List String) : List Char :=
  "Comments emphasise themes such as ".data ++
    (common_words ws ++
      ". Positive clusters point to friendly staff and coffee quality, while repeat mentions of price or speed hint at friction moments. We also track rating distribution and spend by rating, plus daily trends to spot momentum rather than snapshots.".data)

/-- Fourth narrative paragraph, the fixed action points
(`data_analysis.py:153`). -/
def p4txt : List Char :=
  "\n\nAction points:\n\n1) Double down on the behaviours praised most (warm greetings, coffee consistency) via quick shift briefings.\n\n2) Where price or wait-time keywords appear, test a small set of value combos and speedier pickup flow on peak days.\n\n3) Use the downloads to share cleaned data with store managers, and revisit the charts weekly to check whether interventions are shifting ratings and average tickets in the right direction. Together these steps keep the dashboard actionable while making the most of the cleaned dataset.".data

/-- The filler paragraph appended when the narrative is under 250 words
(`data_analysis.py:161-164`; the two adjacent Python literals concatenate,
and the text starts with a space). -/
def filler : List Char :=
  " Additional context: Sustained focus on consistency, friendliness, and speedy pickup remains the most reliable lever for keeping ratings high and tickets healthy. Track these measures weekly and pair them with small experiments on value offers during identified busy days to keep momentum.".data

/-- `narrative = " ".join(narrative_parts)`: the composed template text
before length enforcement. -/
def composed (df : List Record) (base_len : Nat) (ws : List String) : List Char :=
  joinWords
    [p1txt df.length base_len (meanQ (df.map Record.rating))
       (meanQ (df.map Record.value)) (medianQ (df.map Record.value)),
     p2txt df, p3txt ws, p4txt]

/-- `build_narrative` (`data_analysis.py:113-166`): compose the template,
truncate to 400 words when over, append the filler when under 250. -/
def build_narrative (df : List Record) (base_len : Nat) (ws : List String) :
    List Char :=
  let narrative := composed df base_len ws
  let words_count := wc narrative
  if 400 < words_count then joinWords ((runs wordc narrative).take 400)
  else if words_count < 250 then narrative ++ " ".data ++ filler
  else narrative

/-- A raw CSV row as the cleaning step sees it: free-form string cells,
`none` for an NA cell. -/
structure RawRow where
  location : String
  rating : Option String
  value : Option String
  datetime : Option String
  comment : Option String
deriving DecidableEq, Repr

/-- A row after the column-wise cleaning of `load_data`, before
`dropna(subset=["Rating", "Transaction Value"])`.  `D` is the datetime type
produced by the (parameterised) timestamp parser. -/
structure CleanedRow (D : Type) where
  location : String
  rating : Option Q
  value : Option Q
  timestamp : Option D
  comment : Option String
deriving DecidableEq

/-- The column transformations of `load_data` (`data_analysis.py:19-48`)
applied to one row; `parseDT` models `pd.to_datetime(..., dayfirst=True,
errors="coerce")`, returning `none` where parsing fails. -/
def clean_fields {D : Type} (parseDT : String → Option D) (row : RawRow) :
    CleanedRow D :=
  ⟨normalize_location row.location, to_numeric row.rating,
   parse_value row.value, row.datetime.bind parseDT, row.comment⟩

/-- `load_data` row pipeline (`data_analysis.py:14-56`): clean every column,
then `dropna(subset=["Rating", "Transaction Value"])`. -/
def load_data {D : Type} (parseDT : String → Option D) (rows : List RawRow) :
    List (CleanedRow D) :=
  (rows.map (clean_fields parseDT)).filter fun r =>
    r.rating.isSome && r.value.isSome

/-- The sidebar filters (`data_analysis.py:181-207`): location multiselect
(empty selection = no restriction), inclusive rating range, optional
inclusive date range (a record with a null date fails a date-range
comparison). -/
def apply_filters (df : List Record) (locs : List String) (rmin rmax : Q)
    (drange : Option (Int × Int)) : List Record :=
  let d1 := if locs.isEmpty then df else df.filter fun r => locs.contains r.location
  let d2 := d1.filter fun r => decide (Q.le rmin r.rating) && decide (Q.le r.rating rmax)
  match drange with
  | none => d2
  | some (s, e) =>
    d2.filter fun r =>
      match r.date with
      | none => false
      | some d => decide (s ≤ d) && decide (d ≤ e)

/-- What one dashboard cycle renders after the `df.empty` guard
(`data_analysis.py:220-296`): KPI values, the top-locations table, the word
frequencies and the narrative. -/
structure Outputs where
  records : Nat
  avg_rating : Q
  avg_txn : Q
  med_txn : Q
  top10 : List LocAgg
  words : List String
  counts : List Nat
  narrative : List Char
deriving DecidableEq, Repr

/-- Result of one render cycle: either the terminal no-data warning or the
rendered outputs. -/
inductive CycleResult where
  | noData : CycleResult
  | rendered : Outputs → CycleResult
deriving DecidableEq, Repr

/-- One end-to-end cycle of the script body (`data_analysis.py:176-296`):
apply the sidebar filters, stop with the no-data warning if nothing is left
(`df.empty` guard at lines 216-218), otherwise aggregate and render. -/
def run_cycle (base : List Record) (locs : List String) (rmin rmax : Q)
    (drange : Option (Int × Int)) : CycleResult :=
  let df := apply_filters base locs rmin rmax drange
  if df.isEmpty then CycleResult.noData
  else
    let tw := top_words (df.map Record.comment) 12
    CycleResult.rendered
      ⟨df.length, meanQ (df.map Record.rating), meanQ (df.map Record.value),
       medianQ (df.map Record.value), top_loc_10 df, tw.1, tw.2,
       build_narrative df base.length tw.1⟩

/-! ### Lemmas about `runs` (the `split`/`findall` model) -/

theorem runs_nil (p : Char → Bool) : runs p [] = [] := rfl

theorem length_dropWhile_le (p : Char → Bool) (l : List Char) :
    (l.dropWhile p).length ≤ l.length :=
  (List.dropWhile_sublist p).length_le

theorem runsF_congr (p : Char → Bool) :
    ∀ (f : Nat) (l : List Char) (g : Nat), l.length ≤ f → l.length ≤ g →
      runsF p f l = runsF p g l := by
  intro f
  induction f with
  | zero =>
    intro l g hf _
    have : l = [] := List.eq_nil_of_length_eq_zero (Nat.le_zero.mp hf)
    subst this
    cases g <;> rfl
  | succ f ih =>
    intro l g hf hg
    cases l with
    | nil => cases g <;> rfl
    | cons c t =>
      cases g with
      | zero => exact absurd hg (by simp)
      | succ g =>
        simp only [runsF]
        have ht : t.length ≤ f := by simpa using hf
        have hg' : t.length ≤ g := by simpa using hg
        by_cases hc : p c
        · simp only [hc, if_true]
          rw [ih (t.dropWhile p) g
            (le_trans (length_dropWhile_le p t) ht)
            (le_trans (length_dropWhile_le p t) hg')]
        · simp only [hc, if_false]
          exact ih t g ht hg'

theorem runs_cons (p : Char → Bool) (c : Char) (t : List Char) :
    runs p (c :: t) =
      if p c then (c :: t.takeWhile p) :: runs p (t.dropWhile p)
      else runs p t := by
  show runsF p (t.length + 1) (c :: t) = _
  simp only [runsF]
  by_cases hc : p c
  · simp only [hc, if_true]
    rw [runsF_congr p t.length (t.dropWhile p) (t.dropWhile p).length
      (length_dropWhile_le p t) (le_refl _)]
    rfl
  · simp only [hc, if_false]
    rfl

theorem takeWhile_append_sep (p : Char → Bool) (c : Char) (hc : p c = false) :
    ∀ (x y : List Char), (x ++ c :: y).takeWhile p = x.takeWhile p := by
  intro x y
  induction x with
  | nil => simp [List.takeWhile_cons, hc]
  | cons a t ih =>
    simp only [List.cons_append, List.takeWhile_cons]
    by_cases ha : p a <;> simp [ha, ih]

theorem dropWhile_append_sep (p : Char → Bool) (c : Char) (hc : p c = false) :
    ∀ (x y : List Char), (x ++ c :: y).dropWhile p = x.dropWhile p ++ c :: y := by
  intro x y
  induction x with
  | nil => simp [List.dropWhile_cons, hc]
  | cons a t ih =>
    simp only [List.cons_append, List.dropWhile_cons]
    by_cases ha : p a <;> simp [ha, ih]

theorem takeWhile_append_all (p : Char → Bool) :
    ∀ (x y : List Char), (∀ a ∈ x, p a) → (x ++ y).takeWhile p = x ++ y.takeWhile p := by
  intro x y hx
  induction x with
  | nil => simp
  | cons a t ih =>
    have ha : p a := hx a (by simp)
    simp only [List.cons_append, List.takeWhile_cons, ha, if_true, List.cons.injEq,
      true_and]
    exact ih fun b hb => hx b (by simp [hb])

theorem dropWhile_append_all (p : Char → Bool) :
    ∀ (x y : List Char), (∀ a ∈ x, p a) → (x ++ y).dropWhile p = y.dropWhile p := by
  intro x y hx
  induction x with
  | nil => simp
  | cons a t ih =>
    have ha : p a := hx a (by simp)
    simp only [List.cons_append, List.dropWhile_cons, ha, if_true]
    exact ih fun b hb => hx b (by simp [hb])

theorem dropWhile_append_split (p : Char → Bool) :
    ∀ (x y : List Char),
      (x ++ y).dropWhile p =
        if (x.dropWhile p).isEmpty then y.dropWhile p else x.dropWhile p ++ y := by
  intro x y
  induction x with
  | nil => simp
  | cons a t ih =>
    simp only [List.cons_append, List.dropWhile_cons]
    by_cases ha : p a
    · simp only [ha, if_true]; exact ih
    · simp [ha]

theorem runs_append_sep_aux (p : Char → Bool) (c : Char) (hc : p c = false) :
    ∀ (n : Nat) (x y : List Char), x.length ≤ n →
      runs p (x ++ c :: y) = runs p x ++ runs p y := by
  intro n
  induction n with
  | zero =>
    intro x y hx
    have : x = [] := List.eq_nil_of_length_eq_zero (Nat.le_zero.mp hx)
    subst this
    simp [runs_cons, hc, runs_nil]
  | succ n ih =>
    intro x y hx
    cases x with
    | nil => simp [runs_cons, hc, runs_nil]
    | cons a t =>
      have ht : t.length ≤ n := by simpa using hx
      by_cases ha : p a
      · rw [List.cons_append, runs_cons, runs_cons, if_pos ha, if_pos ha,
          takeWhile_append_sep p c hc, dropWhile_append_sep p c hc,
          ih (t.dropWhile p) y (le_trans (length_dropWhile_le p t) ht)]
        simp
      · rw [List.cons_append, runs_cons, runs_cons, if_neg ha, if_neg ha]
        exact ih t y ht

theorem runs_append_sep (p : Char → Bool) (c : Char) (hc : p c = false)
    (x y : List Char) : runs p (x ++ c :: y) = runs p x ++ runs p y :=
  runs_append_sep_aux p c hc x.length x y (le_refl _)

theorem runs_append_word (p : Char → Bool) (d l : List Char)
    (hall : ∀ a ∈ d, p a) (hne : d ≠ []) :
    runs p (d ++ l) = (d ++ l.takeWhile p) :: runs p (l.dropWhile p) := by
  cases d with
  | nil => exact absurd rfl hne
  | cons a t =>
    have ha : p a := hall a (by simp)
    have hall' : ∀ x ∈ t, p x := fun x hx => hall x (by simp [hx])
    rw [List.cons_append, runs_cons, if_pos ha,
      takeWhile_append_all p t l hall', dropWhile_append_all p t l hall']
    simp

theorem runs_drop_succ (p : Char → Bool) (y : List Char) :
    (runs p y).length ≤ 1 + (runs p (y.dropWhile p)).length := by
  cases y with
  | nil => simp [runs_nil]
  | cons d t =>
    by_cases hd : p d
    · rw [runs_cons, if_pos hd, List.dropWhile_cons, if_pos hd]
      simp [Nat.add_comm]
    · rw [List.dropWhile_cons, if_neg hd]
      omega

theorem runs_length_le_append_aux (p : Char → Bool) :
    ∀ (n : Nat) (x y : List Char), x.length ≤ n →
      (runs p y).length ≤ (runs p (x ++ y)).length := by
  intro n
  induction n with
  | zero =>
    intro x y hx
    have : x = [] := List.eq_nil_of_length_eq_zero (Nat.le_zero.mp hx)
    subst this
    simp
  | succ n ih =>
    intro x y hx
    cases x with
    | nil => simp
    | cons a t =>
      have ht : t.length ≤ n := by simpa using hx
      by_cases ha : p a
      · rw [List.cons_append, runs_cons, if_pos ha, dropWhile_append_split p t y]
        by_cases he : (t.dropWhile p).isEmpty
        · rw [if_pos he]
          have h1 := runs_drop_succ p y
          simp only [List.length_cons]
          omega
        · rw [if_neg he]
          have h2 := ih (t.dropWhile p) y (le_trans (length_dropWhile_le p t) ht)
          simp only [List.length_cons]
          omega
      · rw [List.cons_append, runs_cons, if_neg ha]
        exact ih t y ht

theorem runs_length_le_append (p : Char → Bool) (x y : List Char) :
    (runs p y).length ≤ (runs p (x ++ y)).length :=
  runs_length_le_append_aux p x.length x y (le_refl _)

theorem mem_takeWhile_sat (p : Char → Bool) :
    ∀ (l : List Char) (c : Char), c ∈ l.takeWhile p → p c := by
  intro l
  induction l with
  | nil => intro c h; simp at h
  | cons a t ih =>
    intro c h
    rw [List.takeWhile_cons] at h
    by_cases ha : p a
    · rw [if_pos ha] at h
      rcases List.mem_cons.mp h with h | h
      · exact h ▸ ha
      · exact ih c h
    · rw [if_neg ha] at h; simp at h

theorem runs_mem_aux (p : Char → Bool) :
    ∀ (n : Nat) (l : List Char) (w : List Char), l.length ≤ n → w ∈ runs p l →
      w ≠ [] ∧ ∀ c ∈ w, p c := by
  intro n
  induction n with
  | zero =>
    intro l w hl hw
    have : l = [] := List.eq_nil_of_length_eq_zero (Nat.le_zero.mp hl)
    subst this
    rw [runs_nil] at hw
    cases hw
  | succ n ih =>
    intro l w hl hw
    cases l with
    | nil =>
      rw [runs_nil] at hw
      cases hw
    | cons a t =>
      have ht : t.length ≤ n := by simpa using hl
      by_cases ha : p a
      · rw [runs_cons, if_pos ha] at hw
        rcases List.mem_cons.mp hw with h | h
        · subst h
          refine ⟨by simp, ?_⟩
          intro c hc
          rcases List.mem_cons.mp hc with h | h
          · exact h ▸ ha
          · exact mem_takeWhile_sat p t c h
        · exact ih (t.dropWhile p) w (le_trans (length_dropWhile_le p t) ht) h
      · rw [runs_cons, if_neg ha] at hw
        exact ih t w ht hw

theorem runs_mem (p : Char → Bool) (l w : List Char) (h : w ∈ runs p l) :
    w ≠ [] ∧ ∀ c ∈ w, p c :=
  runs_mem_aux p l.length l w (le_refl _) h

theorem runs_joinWords (p : Char → Bool) (hsp : p ' ' = false) :
    ∀ ws : List (List Char), (∀ w ∈ ws, w ≠ [] ∧ ∀ c ∈ w, p c) →
      runs p (joinWords ws) = ws := by
  intro ws
  induction ws with
  | nil => intro _; rfl
  | cons w vs ih =>
    intro h
    obtain ⟨hw, hwp⟩ := h w (by simp)
    have hrw : runs p w = [w] := by
      have := runs_append_word p w [] hwp hw
      simpa using this
    cases vs with
    | nil => exact hrw
    | cons v us =>
      show runs p (w ++ ' ' :: joinWords (v :: us)) = w :: v :: us
      rw [runs_append_sep p ' ' hsp, ih (fun x hx => h x (by simp [hx])), hrw]
      rfl

/-! ### Word-count corollaries and interpolated-text facts -/

theorem wordc_space : wordc ' ' = false := rfl

theorem wc_sep (x y : List Char) : wc (x ++ ' ' :: y) = wc x + wc y := by
  unfold wc
  rw [runs_append_sep wordc ' ' wordc_space, List.length_append]

theorem wc_space_cons (y : List Char) : wc (' ' :: y) = wc y := by
  unfold wc
  rw [runs_cons, if_neg (by rw [wordc_space]; exact Bool.false_ne_true)]

theorem wc_ge_right (x y : List Char) : wc y ≤ wc (x ++ y) :=
  runs_length_le_append wordc x y

theorem wc_word (d l : List Char) (hall : ∀ a ∈ d, wordc a) (hne : d ≠ []) :
    wc (d ++ l) = 1 + wc (l.dropWhile wordc) := by
  unfold wc
  rw [runs_append_word wordc d l hall hne]
  simp [Nat.add_comm]

theorem digitChar_digit (n : Nat) : isDigitC (digitChar n) := by
  unfold digitChar
  split <;> decide

theorem natDigitsF_digits :
    ∀ (f n : Nat) (c : Char), c ∈ natDigitsF f n → isDigitC c := by
  intro f
  induction f with
  | zero =>
    intro n c hc
    simp only [natDigitsF, List.mem_singleton] at hc
    subst hc; decide
  | succ f ih =>
    intro n c hc
    simp only [natDigitsF] at hc
    by_cases hn : n < 10
    · rw [if_pos hn] at hc
      simp only [List.mem_singleton] at hc
      subst hc; exact digitChar_digit n
    · rw [if_neg hn] at hc
      rcases List.mem_append.mp hc with h | h
      · exact ih (n / 10) c h
      · simp only [List.mem_singleton] at h
        subst h; exact digitChar_digit (n % 10)

theorem natDigitsF_ne : ∀ (f n : Nat), natDigitsF f n ≠ [] := by
  intro f
  induction f with
  | zero => intro n; simp [natDigitsF]
  | succ f _ =>
    intro n
    simp only [natDigitsF]
    by_cases hn : n < 10
    · simp [hn]
    · simp [hn]

theorem natDigits_digits (n : Nat) (c : Char) (hc : c ∈ natDigits n) : isDigitC c :=
  natDigitsF_digits (n + 1) n c hc

theorem natDigits_ne (n : Nat) : natDigits n ≠ [] := natDigitsF_ne (n + 1) n

theorem digit_wordc (c : Char) (h : isDigitC c) : wordc c := by
  unfold isDigitC at h
  unfold wordc isPySpace
  simp only [Bool.and_eq_true, decide_eq_true_eq] at h
  simp only [Bool.not_eq_true', Bool.or_eq_false_iff, decide_eq_false_iff_not]
  omega

theorem natDigits_wordc (n : Nat) (c : Char) (hc : c ∈ natDigits n) : wordc c :=
  digit_wordc c (natDigits_digits n c hc)

theorem fmt2_wordc (x : Q) (c : Char) (hc : c ∈ fmt2 x) : wordc c := by
  unfold fmt2 at hc
  rcases List.mem_append.mp hc with h | h
  · rcases List.mem_append.mp h with h1 | h1
    · by_cases hs : Q.round (Q.mul x ⟨100, 1⟩) < 0
      · rw [if_pos hs] at h1
        simp only [List.mem_singleton] at h1
        subst h1; decide
      · rw [if_neg hs] at h1
        cases h1
    · exact natDigits_wordc _ c h1
  · rcases List.mem_cons.mp h with h1 | h1
    · subst h1; decide
    · by_cases hs : (Q.round (Q.mul x ⟨100, 1⟩)).natAbs % 100 < 10
      · rw [if_pos hs] at h1
        rcases List.mem_cons.mp h1 with h2 | h2
        · subst h2; decide
        · exact natDigits_wordc _ c h2
      · rw [if_neg hs] at h1
        exact natDigits_wordc _ c h1

theorem fmt2_ne (x : Q) : fmt2 x ≠ [] := by
  unfold fmt2
  intro h
  rcases List.append_eq_nil.mp h with ⟨h1, -⟩
  rcases List.append_eq_nil.mp h1 with ⟨-, h2⟩
  exact natDigits_ne _ h2

/-! ### Location normalisation: strip / collapse facts -/

theorem head_dropWhile_false (p : Char → Bool) :
    ∀ (l : List Char) (c : Char), (l.dropWhile p).head? = some c → p c = false := by
  intro l
  induction l with
  | nil => intro c h; simp at h
  | cons a t ih =>
    intro c h
    rw [List.dropWhile_cons] at h
    by_cases ha : p a
    · rw [if_pos ha] at h
      exact ih c h
    · rw [if_neg ha] at h
      simp only [List.head?_cons, Option.some.injEq] at h
      subst h
      exact Bool.eq_false_iff.mpr ha

theorem getLast_suffix_eq (x l : List Char) (h : x <:+ l) (hne : x ≠ []) :
    x.getLast? = l.getLast? := by
  obtain ⟨pre, rfl⟩ := h
  rw [List.getLast?_append]
  cases hx : x.getLast? with
  | none => exact absurd (List.getLast?_eq_none_iff.mp hx) hne
  | some v => rfl

theorem pyStrip_head (l : List Char) (c : Char) (h : (pyStrip l).head? = some c) :
    isPySpace c = false := by
  unfold pyStrip at h
  rw [List.head?_reverse] at h
  have hB : ((l.dropWhile isPySpace).reverse.dropWhile isPySpace) ≠ [] := by
    intro he
    rw [he] at h
    simp at h
  rw [getLast_suffix_eq _ _ (List.dropWhile_suffix isPySpace) hB,
    List.getLast?_reverse] at h
  exact head_dropWhile_false isPySpace l c h

theorem pyStrip_last (l : List Char) (c : Char) (h : (pyStrip l).getLast? = some c) :
    isPySpace c = false := by
  unfold pyStrip at h
  rw [List.getLast?_reverse] at h
  exact head_dropWhile_false isPySpace _ c h

theorem pyStrip_id (l : List Char)
    (hh : ∀ c, l.head? = some c → isPySpace c = false)
    (hl : ∀ c, l.getLast? = some c → isPySpace c = false) :
    pyStrip l = l := by
  unfold pyStrip
  have h1 : l.dropWhile isPySpace = l := by
    cases l with
    | nil => rfl
    | cons a t =>
      rw [List.dropWhile_cons, if_neg]
      rw [hh a (by simp)]
      exact Bool.false_ne_true
  rw [h1]
  have h2 : l.reverse.dropWhile isPySpace = l.reverse := by
    cases hr : l.reverse with
    | nil => rfl
    | cons a t =>
      rw [List.dropWhile_cons, if_neg]
      have : l.getLast? = some a := by
        rw [← List.head?_reverse, hr]; rfl
      rw [hl a this]
      exact Bool.false_ne_true
  rw [h2, List.reverse_reverse]

theorem collapseWS_ne : ∀ l : List Char, l ≠ [] → collapseWS l ≠ [] := by
  intro l
  induction l with
  | nil => intro h; exact absurd rfl h
  | cons a t ih =>
    intro _
    cases t with
    | nil =>
      show collapseWS [a] ≠ []
      unfold collapseWS
      by_cases ha : isPySpace a <;> simp [ha]
    | cons b u =>
      show collapseWS (a :: b :: u) ≠ []
      unfold collapseWS
      by_cases hab : isPySpace a && isPySpace b
      · rw [if_pos hab]
        exact ih (by simp)
      · rw [if_neg hab]
        simp

theorem collapseWS_head (l : List Char) (a : Char) (h : l.head? = some a)
    (ha : isPySpace a = false) : (collapseWS l).head? = some a := by
  cases l with
  | nil => simp at h
  | cons x t =>
    simp only [List.head?_cons, Option.some.injEq] at h
    subst h
    cases t with
    | nil =>
      show (collapseWS [x]).head? = some x
      unfold collapseWS
      rw [if_neg (by rw [ha]; exact Bool.false_ne_true)]
      rfl
    | cons b u =>
      show (collapseWS (x :: b :: u)).head? = some x
      unfold collapseWS
      have hab : (isPySpace x && isPySpace b) = false := by
        rw [ha]; rfl
      rw [if_neg (by rw [hab]; exact Bool.false_ne_true)]
      rw [if_neg (by rw [ha]; exact Bool.false_ne_true)]
      rfl

theorem getLast?_cons_of_ne (x : Char) (M : List Char) (hM : M ≠ []) :
    (x :: M).getLast? = M.getLast? := by
  rw [show x :: M = [x] ++ M from rfl, List.getLast?_append]
  cases hb : M.getLast? with
  | none => exact absurd (List.getLast?_eq_none_iff.mp hb) hM
  | some v => rfl

theorem collapseWS_last : ∀ (l : List Char) (z : Char), l.getLast? = some z →
    isPySpace z = false → (collapseWS l).getLast? = some z := by
  intro l
  induction l with
  | nil => intro z h; simp at h
  | cons a t ih =>
    intro z h hz
    cases t with
    | nil =>
      simp only [List.getLast?_singleton, Option.some.injEq] at h
      subst h
      show (collapseWS [a]).getLast? = some a
      unfold collapseWS
      rw [if_neg (by rw [hz]; exact Bool.false_ne_true)]
      rfl
    | cons b u =>
      have hbt : (b :: u).getLast? = some z := by
        rw [← getLast?_cons_of_ne a (b :: u) (by simp)]
        exact h
      have hM := ih z hbt hz
      show (collapseWS (a :: b :: u)).getLast? = some z
      unfold collapseWS
      by_cases hab : isPySpace a && isPySpace b
      · rw [if_pos hab]
        exact hM
      · rw [if_neg hab]
        rw [getLast?_cons_of_ne _ _ (collapseWS_ne (b :: u) (by simp))]
        exact hM

theorem collapseWS_one (c : Char) :
    collapseWS [c] = if isPySpace c then [' '] else [c] := rfl

theorem collapseWS_cons2 (a b : Char) (u : List Char) :
    collapseWS (a :: b :: u) =
      if isPySpace a && isPySpace b then collapseWS (b :: u)
      else (if isPySpace a then ' ' else a) :: collapseWS (b :: u) := rfl

theorem collapseWS_invariant :
    ∀ l : List Char,
      List.Chain' (fun a b => ¬(isPySpace a = true ∧ isPySpace b = true)) (collapseWS l) ∧
      ∀ c ∈ collapseWS l, isPySpace c = true → c = ' ' := by
  intro l
  induction l with
  | nil => exact ⟨List.chain'_nil, by intro c hc; cases hc⟩
  | cons a t ih =>
    cases t with
    | nil =>
      rw [collapseWS_one]
      constructor
      · by_cases ha : isPySpace a <;> simp [ha]
      · intro c hc
        by_cases ha : isPySpace a
        · rw [if_pos ha] at hc
          rw [List.mem_singleton] at hc
          subst hc
          intro _; rfl
        · rw [if_neg ha] at hc
          rw [List.mem_singleton] at hc
          subst hc
          intro hcc
          exact absurd hcc ha
    | cons b u =>
      rw [collapseWS_cons2]
      by_cases hab : isPySpace a && isPySpace b
      · rw [if_pos hab]
        exact ih
      · rw [if_neg hab]
        obtain ⟨ihc, ihm⟩ := ih
        constructor
        · rw [List.chain'_cons']
          refine ⟨?_, ihc⟩
          intro y hy
          by_cases ha : isPySpace a
          · have hb : isPySpace b = false := by
              cases hbb : isPySpace b
              · rfl
              · exact absurd (by rw [ha, hbb]; rfl :
                  (isPySpace a && isPySpace b) = true) hab
            have hhd : (collapseWS (b :: u)).head? = some b :=
              collapseWS_head (b :: u) b (by simp) hb
            rw [hhd] at hy
            simp only [Option.mem_def, Option.some.injEq] at hy
            subst hy
            rw [hb]
            simp
          · rw [if_neg ha]
            intro hcon
            exact ha (by rw [hcon.1])
        · intro c hc
          rcases List.mem_cons.mp hc with h | h
          · subst h
            by_cases ha : isPySpace a
            · rw [if_pos ha]
              intro _; rfl
            · rw [if_neg ha]
              intro hcon
              exact absurd hcon ha
          · exact ihm c h

theorem collapseWS_id :
    ∀ l : List Char,
      List.Chain' (fun a b => ¬(isPySpace a = true ∧ isPySpace b = true)) l →
      (∀ c ∈ l, isPySpace c = true → c = ' ') → collapseWS l = l := by
  intro l
  induction l with
  | nil => intro _ _; rfl
  | cons a t ih =>
    intro hc hm
    cases t with
    | nil =>
      rw [collapseWS_one]
      by_cases ha : isPySpace a
      · rw [if_pos ha, hm a (by simp) ha]
      · rw [if_neg ha]
    | cons b u =>
      have hnot : ¬(isPySpace a = true ∧ isPySpace b = true) :=
        (List.chain'_cons.mp hc).1
      have hab : (isPySpace a && isPySpace b) = false := by
        cases ha : isPySpace a
        · rfl
        · cases hb : isPySpace b
          · rfl
          · exact absurd ⟨ha, hb⟩ hnot
      rw [collapseWS_cons2, hab]
      simp only [Bool.false_eq_true, if_false]
      rw [ih (List.chain'_cons.mp hc).2 (fun c hcc => hm c (by simp [hcc]))]
      by_cases ha : isPySpace a
      · rw [if_pos ha, hm a (by simp) ha]
      · rw [if_neg ha]

/-- Claim C6: location normalization (coerce to string, strip, collapse
internal whitespace runs to a single space) is idempotent — applying
`normalize_location` to an already-normalized string returns it unchanged —
and, for example, `"  Main   St "` normalizes to `"Main St"`. -/
theorem normalize_location_idempotent :
    (∀ s : String, normalize_location (normalize_location s) = normalize_location s) ∧
    normalize_location "  Main   St " = "Main St" := by
  constructor
  · intro s
    show String.mk (collapseWS (pyStrip (collapseWS (pyStrip s.data)))) =
      String.mk (collapseWS (pyStrip s.data))
    cases hp : pyStrip s.data with
    | nil =>
      rfl
    | cons a rest =>
      have hha : isPySpace a = false := pyStrip_head s.data a (by rw [hp]; rfl)
      have hhead : (collapseWS (a :: rest)).head? = some a :=
        collapseWS_head (a :: rest) a (by simp) hha
      have hlast : ∀ c, (collapseWS (a :: rest)).getLast? = some c →
          isPySpace c = false := by
        intro c hcl
        cases hq : (a :: rest).getLast? with
        | none =>
          exact absurd (List.getLast?_eq_none_iff.mp hq) (by simp)
        | some z =>
          have hz : isPySpace z = false := pyStrip_last s.data z (by rw [hp]; exact hq)
          have hzl : (collapseWS (a :: rest)).getLast? = some z :=
            collapseWS_last (a :: rest) z hq hz
          rw [hzl] at hcl
          cases hcl
          exact hz
      have hstrip : pyStrip (collapseWS (a :: rest)) = collapseWS (a :: rest) := by
        apply pyStrip_id
        · intro c hcc
          rw [hhead] at hcc
          cases hcc
          exact hha
        · exact hlast
      rw [hstrip]
      obtain ⟨hch, hmem⟩ := collapseWS_invariant (a :: rest)
      rw [collapseWS_id (collapseWS (a :: rest)) hch hmem]
  · decide

/-! ### `parse_value` facts -/

theorem afterDash_snd_subset (l : List Char) : ∀ c ∈ (afterDash l).2, c ∈ l := by
  unfold afterDash
  split
  · intro c hc; simp [hc]
  · intro c hc; exact hc

theorem afterDollar_snd_subset (l : List Char) : ∀ c ∈ (afterDollar l).2, c ∈ l := by
  unfold afterDollar
  split
  · intro c hc; simp [hc]
  · intro c hc; exact hc

theorem mem_dropWhile_subset (p : Char → Bool) (l : List Char) :
    ∀ c ∈ l.dropWhile p, c ∈ l :=
  fun _ hc => (List.dropWhile_sublist p).subset hc

theorem pyStrip_subset (l : List Char) : ∀ c ∈ pyStrip l, c ∈ l := by
  intro c hc
  unfold pyStrip at hc
  rw [List.mem_reverse] at hc
  have h1 := mem_dropWhile_subset isPySpace (l.dropWhile isPySpace).reverse c hc
  rw [List.mem_reverse] at h1
  exact mem_dropWhile_subset isPySpace l c h1

theorem numPart_digit (r : List Char) (d : List Char) (h : numPart r = some d) :
    ∃ c ∈ r, isDigitC c := by
  cases r with
  | nil => simp [numPart] at h
  | cons c t =>
    by_cases hc : isDigitC c
    · exact ⟨c, by simp, hc⟩
    · simp [numPart, hc] at h

theorem matchAt_digit (l : List Char) (m : List Char) (h : matchAt l = some m) :
    ∃ c ∈ l, isDigitC c := by
  simp only [matchAt] at h
  cases hnp : numPart ((afterDollar (afterDash l).2).2.dropWhile isPySpace) with
  | none =>
    simp only [hnp] at h
    exact Option.noConfusion h
  | some d =>
    obtain ⟨c, hcr, hcd⟩ := numPart_digit _ d hnp
    refine ⟨c, ?_, hcd⟩
    have h1 := mem_dropWhile_subset isPySpace (afterDollar (afterDash l).2).2 c hcr
    have h2 := afterDollar_snd_subset (afterDash l).2 c h1
    exact afterDash_snd_subset l c h2

theorem reSearch_digit :
    ∀ (l : List Char) (m : List Char), reSearch l = some m → ∃ c ∈ l, isDigitC c := by
  intro l
  induction l with
  | nil => intro m h; cases h
  | cons a t ih =>
    intro m h
    unfold reSearch at h
    cases hma : matchAt (a :: t) with
    | some w => exact matchAt_digit (a :: t) w hma
    | none =>
      rw [hma] at h
      obtain ⟨c, hct, hcd⟩ := ih m h
      exact ⟨c, by simp [hct], hcd⟩

/-- Claim C1: for every raw transaction-value string, `parse_value` returns
either null or a numeric value strictly greater than 0 and at most 500; and
for a string with no digit it always returns null. -/
theorem parse_value_range_and_no_digit :
    (∀ (s : String) (v : Q), parse_value (some s) = some v →
      Q.lt (Q.ofInt 0) v ∧ Q.le v (Q.ofInt 500)) ∧
    (∀ s : String, (∀ c ∈ s.data, isDigitC c = false) →
      parse_value (some s) = none) := by
  constructor
  · intro s v h
    simp only [parse_value] at h
    cases hm : reSearch (pyStrip s.data) with
    | none =>
      simp only [hm] at h
      exact Option.noConfusion h
    | some m =>
      simp only [hm] at h
      cases hf : pyFloat (m.filter fun c => !(c = ',' || c = '$')) with
      | none =>
        simp only [hf] at h
        exact Option.noConfusion h
      | some val =>
        simp only [hf] at h
        by_cases hcond : Q.le val (Q.ofInt 0) ∨ Q.lt (Q.ofInt 500) val
        · rw [if_pos hcond] at h; cases h
        · rw [if_neg hcond] at h
          cases h
          push_neg at hcond
          obtain ⟨h1, h2⟩ := hcond
          unfold Q.le Q.lt Q.ofInt at *
          simp only at *
          omega
  · intro s hnod
    simp only [parse_value]
    cases hm : reSearch (pyStrip s.data) with
    | none => simp only [hm]
    | some m =>
      obtain ⟨c, hcs, hcd⟩ := reSearch_digit (pyStrip s.data) m hm
      have hcl : c ∈ s.data := pyStrip_subset s.data c hcs
      rw [hnod c hcl] at hcd
      cases hcd

/-- Witness for claim C1 at concrete inputs: `"$12.50"` parses to a value in
range and `"abc"` (no digit run) parses to null. -/
theorem parse_value_range_and_no_digit_witness :
    (Q.lt (Q.ofInt 0) ⟨1250, 100⟩ ∧ Q.le (⟨1250, 100⟩ : Q) (Q.ofInt 500)) ∧
    parse_value (some "abc") = none :=
  ⟨parse_value_range_and_no_digit.1 "$12.50" ⟨1250, 100⟩ (by decide),
   parse_value_range_and_no_digit.2 "abc" (by decide)⟩

/-! ### Cleaning pipeline facts -/

/-- Claim C3: every record retained after cleaning has a non-null rating and
a non-null transaction value, while a row whose timestamp fails to parse
(null timestamp) is still retained whenever its rating and value parse. -/
theorem load_data_nonnull_and_keeps_null_timestamp :
    (∀ (D : Type) (parseDT : String → Option D) (rows : List RawRow),
      ∀ r ∈ load_data parseDT rows, r.rating.isSome ∧ r.value.isSome) ∧
    (∀ (D : Type) (parseDT : String → Option D) (rows : List RawRow) (row : RawRow),
      row ∈ rows → (clean_fields parseDT row).timestamp = none →
      (to_numeric row.rating).isSome → (parse_value row.value).isSome →
      clean_fields parseDT row ∈ load_data parseDT rows) := by
  constructor
  · intro D parseDT rows r hr
    have := (List.mem_filter.mp hr).2
    exact ⟨(Bool.and_eq_true _ _ ▸ this).1, (Bool.and_eq_true _ _ ▸ this).2⟩
  · intro D parseDT rows row hrow _ hr hv
    refine List.mem_filter.mpr ⟨List.mem_map_of_mem (clean_fields parseDT) hrow, ?_⟩
    show ((clean_fields parseDT row).rating.isSome &&
      (clean_fields parseDT row).value.isSome) = true
    have h1 : (clean_fields parseDT row).rating = to_numeric row.rating := rfl
    have h2 : (clean_fields parseDT row).value = parse_value row.value := rfl
    rw [h1, h2, hr, hv]
    rfl

/-- Witness for claim C3: a concrete row whose timestamp cell fails to parse
is retained by `load_data`, and that retained record has non-null rating and
value. -/
theorem load_data_nonnull_and_keeps_null_timestamp_witness :
    clean_fields (fun _ => (none : Option Unit))
        ⟨"Main St", some "4", some "$12.50", some "31/02/2023 99:99", some "ok"⟩ ∈
      load_data (fun _ => (none : Option Unit))
        [⟨"Main St", some "4", some "$12.50", some "31/02/2023 99:99", some "ok"⟩] ∧
    ((clean_fields (fun _ => (none : Option Unit))
        ⟨"Main St", some "4", some "$12.50", some "31/02/2023 99:99", some "ok"⟩).rating.isSome ∧
     (clean_fields (fun _ => (none : Option Unit))
        ⟨"Main St", some "4", some "$12.50", some "31/02/2023 99:99", some "ok"⟩).value.isSome) := by
  have hmem := load_data_nonnull_and_keeps_null_timestamp.2 Unit
    (fun _ => (none : Option Unit))
    [⟨"Main St", some "4", some "$12.50", some "31/02/2023 99:99", some "ok"⟩]
    ⟨"Main St", some "4", some "$12.50", some "31/02/2023 99:99", some "ok"⟩
    (by simp) (by decide) (by decide) (by decide)
  exact ⟨hmem,
    load_data_nonnull_and_keeps_null_timestamp.1 Unit
      (fun _ => (none : Option Unit)) _ _ hmem⟩

/-- Claim C10: cleaning does not validate the rating's range — any row whose
rating coerces to a number (whatever the value) and whose transaction value
parses is retained, and only rows with a non-numeric (null) rating are
dropped on the rating side. -/
theorem load_data_no_rating_range_check :
    (∀ (D : Type) (parseDT : String → Option D) (rows : List RawRow) (row : RawRow)
      (r v : Q), row ∈ rows → to_numeric row.rating = some r →
      parse_value row.value = some v →
      clean_fields parseDT row ∈ load_data parseDT rows) ∧
    (∀ (D : Type) (parseDT : String → Option D) (rows : List RawRow) (row : RawRow),
      to_numeric row.rating = none →
      clean_fields parseDT row ∉ load_data parseDT rows) := by
  constructor
  · intro D parseDT rows row r v hrow hr hv
    refine List.mem_filter.mpr ⟨List.mem_map_of_mem (clean_fields parseDT) hrow, ?_⟩
    show ((clean_fields parseDT row).rating.isSome &&
      (clean_fields parseDT row).value.isSome) = true
    have h1 : (clean_fields parseDT row).rating = to_numeric row.rating := rfl
    have h2 : (clean_fields parseDT row).value = parse_value row.value := rfl
    rw [h1, h2, hr, hv]
    rfl
  · intro D parseDT rows row hr hmem
    have := (List.mem_filter.mp hmem).2
    have hrat : (clean_fields parseDT row).rating = to_numeric row.rating := rfl
    rw [Bool.and_eq_true] at this
    rw [hrat, hr] at this
    exact Bool.noConfusion this.1

/-- Witness for claim C10: a row with the out-of-range numeric rating `-3` is
retained (no range validation), while a row with the non-numeric rating
`"bad"` is dropped. -/
theorem load_data_no_rating_range_check_witness :
    clean_fields (fun _ => (none : Option Unit))
        ⟨"Main St", some "-3", some "$12.50", none, none⟩ ∈
      load_data (fun _ => (none : Option Unit))
        [⟨"Main St", some "-3", some "$12.50", none, none⟩] ∧
    clean_fields (fun _ => (none : Option Unit))
        ⟨"Main St", some "bad", some "$12.50", none, none⟩ ∉
      load_data (fun _ => (none : Option Unit))
        [⟨"Main St", some "bad", some "$12.50", none, none⟩] :=
  ⟨load_data_no_rating_range_check.1 Unit (fun _ => (none : Option Unit))
      [⟨"Main St", some "-3", some "$12.50", none, none⟩]
      ⟨"Main St", some "-3", some "$12.50", none, none⟩
      ⟨-3, 1⟩ ⟨1250, 100⟩ (by simp) (by decide) (by decide),
   load_data_no_rating_range_check.2 Unit (fun _ => (none : Option Unit))
      [⟨"Main St", some "bad", some "$12.50", none, none⟩]
      ⟨"Main St", some "bad", some "$12.50", none, none⟩
      (by decide)⟩

/-! ### End-to-end cycle and location threshold -/

/-- Claim C9: when the user-selected filters yield an empty record set, the
cycle ends in the terminal no-data state (no aggregation, word extraction,
narrative or rendering happens), and only then. -/
theorem run_cycle_no_data :
    ∀ (base : List Record) (locs : List String) (rmin rmax : Q)
      (drange : Option (Int × Int)),
      run_cycle base locs rmin rmax drange = CycleResult.noData ↔
      apply_filters base locs rmin rmax drange = [] := by
  intro base locs rmin rmax drange
  by_cases h : (apply_filters base locs rmin rmax drange).isEmpty
  · simp only [run_cycle, h, if_true]
    exact ⟨fun _ => List.isEmpty_iff.mp h, fun _ => trivial⟩
  · simp only [run_cycle, h, Bool.false_eq_true, if_false]
    constructor
    · intro hcon
      exact CycleResult.noConfusion hcon
    · intro he
      exact absurd (List.isEmpty_iff.mpr he) h

/-- Witness for claim C9: filtering a one-record set by a location that does
not occur yields the no-data terminal state. -/
theorem run_cycle_no_data_witness :
    run_cycle [⟨"Main St", ⟨4, 1⟩, ⟨10, 1⟩, none, none, none⟩] ["Elsewhere"]
      ⟨1, 1⟩ ⟨5, 1⟩ none = CycleResult.noData :=
  (run_cycle_no_data [⟨"Main St", ⟨4, 1⟩, ⟨10, 1⟩, none, none, none⟩] ["Elsewhere"]
    ⟨1, 1⟩ ⟨5, 1⟩ none).mpr (by decide)

theorem mem_insertAggD (x a : LocAgg) :
    ∀ l : List LocAgg, a ∈ insertAggD x l ↔ a = x ∨ a ∈ l := by
  intro l
  induction l with
  | nil => simp [insertAggD]
  | cons q t ih =>
    show a ∈ (if Q.le x.avg_rating q.avg_rating then q :: insertAggD x t
      else x :: q :: t) ↔ _
    by_cases hle : Q.le x.avg_rating q.avg_rating
    · rw [if_pos hle]
      simp only [List.mem_cons, ih]
      try tauto
    · rw [if_neg hle]
      simp only [List.mem_cons]
      try tauto

theorem mem_insertAggA (x a : LocAgg) :
    ∀ l : List LocAgg, a ∈ insertAggA x l ↔ a = x ∨ a ∈ l := by
  intro l
  induction l with
  | nil => simp [insertAggA]
  | cons q t ih =>
    show a ∈ (if Q.le q.avg_rating x.avg_rating then q :: insertAggA x t
      else x :: q :: t) ↔ _
    by_cases hle : Q.le q.avg_rating x.avg_rating
    · rw [if_pos hle]
      simp only [List.mem_cons, ih]
      try tauto
    · rw [if_neg hle]
      simp only [List.mem_cons]
      try tauto

theorem mem_sortAggDesc (a : LocAgg) :
    ∀ (l acc : List LocAgg),
      a ∈ l.foldl (fun acc x => insertAggD x acc) acc ↔ a ∈ acc ∨ a ∈ l := by
  intro l
  induction l with
  | nil => simp
  | cons x t ih =>
    intro acc
    show a ∈ t.foldl (fun acc x => insertAggD x acc) (insertAggD x acc) ↔ _
    rw [ih (insertAggD x acc), mem_insertAggD]
    simp only [List.mem_cons]
    tauto

theorem mem_sortAggAsc (a : LocAgg) :
    ∀ (l acc : List LocAgg),
      a ∈ l.foldl (fun acc x => insertAggA x acc) acc ↔ a ∈ acc ∨ a ∈ l := by
  intro l
  induction l with
  | nil => simp
  | cons x t ih =>
    intro acc
    show a ∈ t.foldl (fun acc x => insertAggA x acc) (insertAggA x acc) ↔ _
    rw [ih (insertAggA x acc), mem_insertAggA]
    simp only [List.mem_cons]
    tauto

theorem loc_summary_count (df : List Record) (a : LocAgg)
    (h : a ∈ loc_summary df) :
    a.count = (df.filter fun r => r.location = a.loc).length := by
  unfold loc_summary at h
  obtain ⟨k, -, hk⟩ := List.mem_map.mp h
  subst hk
  rfl

theorem loc_summary_ge5_ne (df : List Record) (loc : String)
    (h : (df.filter fun r => r.location = loc).length < 5) :
    ∀ a ∈ loc_summary_ge5 df, a.loc ≠ loc := by
  intro a ha heq
  obtain ⟨hmem, hcnt⟩ := List.mem_filter.mp ha
  have h5 : 5 ≤ a.count := of_decide_eq_true hcnt
  have hc := loc_summary_count df a hmem
  rw [heq] at hc
  omega

/-- Claim C7: a location with fewer than 5 records never appears in the
narrative's top-1 or bottom-1 location, nor in the chart's top-10 list — the
5-record threshold is a strict at-least-5 filter applied before sorting. -/
theorem location_threshold_strict :
    ∀ (df : List Record) (loc : String),
      (df.filter fun r => r.location = loc).length < 5 →
      (∀ a ∈ top_loc_1 df, a.loc ≠ loc) ∧
      (∀ a ∈ bottom_loc_1 df, a.loc ≠ loc) ∧
      (∀ a ∈ top_loc_10 df, a.loc ≠ loc) := by
  intro df loc h
  have hg := loc_summary_ge5_ne df loc h
  refine ⟨?_, ?_, ?_⟩
  · intro a ha
    have h1 := List.take_subset 1 (sortAggDesc (loc_summary_ge5 df)) ha
    exact hg a (((mem_sortAggDesc a (loc_summary_ge5 df) []).mp h1).resolve_left
      (by simp))
  · intro a ha
    have h1 := List.take_subset 1 (sortAggAsc (loc_summary_ge5 df)) ha
    exact hg a (((mem_sortAggAsc a (loc_summary_ge5 df) []).mp h1).resolve_left
      (by simp))
  · intro a ha
    have h1 := List.take_subset 10 (sortAggDesc (loc_summary_ge5 df)) ha
    exact hg a (((mem_sortAggDesc a (loc_summary_ge5 df) []).mp h1).resolve_left
      (by simp))

/-- Witness for claim C7: with four records at location `"A"` and five at
`"B"`, location `"A"` appears in none of the ranking outputs. -/
theorem location_threshold_strict_witness :
    (∀ a ∈ top_loc_1 [⟨"A", ⟨4, 1⟩, ⟨10, 1⟩, none, none, none⟩,
        ⟨"A", ⟨4, 1⟩, ⟨10, 1⟩, none, none, none⟩,
        ⟨"A", ⟨4, 1⟩, ⟨10, 1⟩, none, none, none⟩,
        ⟨"A", ⟨4, 1⟩, ⟨10, 1⟩, none, none, none⟩,
        ⟨"B", ⟨3, 1⟩, ⟨9, 1⟩, none, none, none⟩,
        ⟨"B", ⟨3, 1⟩, ⟨9, 1⟩, none, none, none⟩,
        ⟨"B", ⟨3, 1⟩, ⟨9, 1⟩, none, none, none⟩,
        ⟨"B", ⟨3, 1⟩, ⟨9, 1⟩, none, none, none⟩,
        ⟨"B", ⟨3, 1⟩, ⟨9, 1⟩, none, none, none⟩], a.loc ≠ "A") ∧
    (∀ a ∈ bottom_loc_1 [⟨"A", ⟨4, 1⟩, ⟨10, 1⟩, none, none, none⟩,
        ⟨"A", ⟨4, 1⟩, ⟨10, 1⟩, none, none, none⟩,
        ⟨"A", ⟨4, 1⟩, ⟨10, 1⟩, none, none, none⟩,
        ⟨"A", ⟨4, 1⟩, ⟨10, 1⟩, none, none, none⟩,
        ⟨"B", ⟨3, 1⟩, ⟨9, 1⟩, none, none, none⟩,
        ⟨"B", ⟨3, 1⟩, ⟨9, 1⟩, none, none, none⟩,
        ⟨"B", ⟨3, 1⟩, ⟨9, 1⟩, none, none, none⟩,
        ⟨"B", ⟨3, 1⟩, ⟨9, 1⟩, none, none, none⟩,
        ⟨"B", ⟨3, 1⟩, ⟨9, 1⟩, none, none, none⟩], a.loc ≠ "A") ∧
    (∀ a ∈ top_loc_10 [⟨"A", ⟨4, 1⟩, ⟨10, 1⟩, none, none, none⟩,
        ⟨"A", ⟨4, 1⟩, ⟨10, 1⟩, none, none, none⟩,
        ⟨"A", ⟨4, 1⟩, ⟨10, 1⟩, none, none, none⟩,
        ⟨"A", ⟨4, 1⟩, ⟨10, 1⟩, none, none, none⟩,
        ⟨"B", ⟨3, 1⟩, ⟨9, 1⟩, none, none, none⟩,
        ⟨"B", ⟨3, 1⟩, ⟨9, 1⟩, none, none, none⟩,
        ⟨"B", ⟨3, 1⟩, ⟨9, 1⟩, none, none, none⟩,
        ⟨"B", ⟨3, 1⟩, ⟨9, 1⟩, none, none, none⟩,
        ⟨"B", ⟨3, 1⟩, ⟨9, 1⟩, none, none, none⟩], a.loc ≠ "A") :=
  location_threshold_strict _ "A" (by decide)

/-! ### Word extractor facts -/

/-- Claim C8: for the comments `["Great coffee and great staff", "Great
staff"]` with the default stopword set (which drops `"and"`), `top_words`
ranks `"great"` first with count 3. -/
theorem top_words_great_example :
    (top_words [some "Great coffee and great staff", some "Great staff"] 12).1.head? =
      some "great" ∧
    (top_words [some "Great coffee and great staff", some "Great staff"] 12).2.head? =
      some 3 := by
  constructor <;> decide

theorem mem_insertCount (x a : String × Nat) :
    ∀ l : List (String × Nat), a ∈ insertCount x l ↔ a = x ∨ a ∈ l := by
  intro l
  induction l with
  | nil => simp [insertCount]
  | cons q t ih =>
    show a ∈ (if x.2 ≤ q.2 then q :: insertCount x t else x :: q :: t) ↔ _
    by_cases hle : x.2 ≤ q.2
    · rw [if_pos hle]
      simp only [List.mem_cons, ih]
      try tauto
    · rw [if_neg hle]
      simp only [List.mem_cons]
      try tauto

theorem insertCount_sorted (x : String × Nat) :
    ∀ l : List (String × Nat),
      List.Sorted (fun a b : String × Nat => b.2 ≤ a.2) l →
      List.Sorted (fun a b : String × Nat => b.2 ≤ a.2) (insertCount x l) := by
  intro l
  induction l with
  | nil => intro _; simp [insertCount]
  | cons q t ih =>
    intro hs
    rw [List.sorted_cons] at hs
    obtain ⟨hq, ht⟩ := hs
    show List.Sorted _ (if x.2 ≤ q.2 then q :: insertCount x t else x :: q :: t)
    by_cases hle : x.2 ≤ q.2
    · rw [if_pos hle]
      rw [List.sorted_cons]
      refine ⟨?_, ih ht⟩
      intro b hb
      rcases (mem_insertCount x b t).mp hb with h | h
      · rw [h]; exact hle
      · exact hq b h
    · rw [if_neg hle]
      rw [List.sorted_cons]
      constructor
      · intro b hb
        rcases List.mem_cons.mp hb with h | h
        · rw [h]; omega
        · have := hq b h
          omega
      · rw [List.sorted_cons]
        exact ⟨hq, ht⟩

theorem sortDesc_sorted_aux :
    ∀ (l acc : List (String × Nat)),
      List.Sorted (fun a b : String × Nat => b.2 ≤ a.2) acc →
      List.Sorted (fun a b : String × Nat => b.2 ≤ a.2)
        (l.foldl (fun acc x => insertCount x acc) acc) := by
  intro l
  induction l with
  | nil => intro acc h; exact h
  | cons x t ih =>
    intro acc h
    exact ih (insertCount x acc) (insertCount_sorted x acc h)

theorem sortDesc_sorted (l : List (String × Nat)) :
    List.Sorted (fun a b : String × Nat => b.2 ≤ a.2) (sortDesc l) :=
  sortDesc_sorted_aux l [] (by simp)

theorem filter_insertCount (k : Nat) (x : String × Nat) :
    ∀ l : List (String × Nat),
      List.Sorted (fun a b : String × Nat => b.2 ≤ a.2) l →
      (insertCount x l).filter (fun p => p.2 = k) =
        if x.2 = k then l.filter (fun p => p.2 = k) ++ [x]
        else l.filter (fun p => p.2 = k) := by
  intro l
  induction l with
  | nil =>
    intro _
    show [x].filter (fun p => p.2 = k) = _
    by_cases hx : x.2 = k
    · rw [if_pos hx]
      simp [List.filter_cons, hx]
    · rw [if_neg hx]
      simp [List.filter_cons, hx]
  | cons q t ih =>
    intro hs
    rw [List.sorted_cons] at hs
    obtain ⟨hq, ht⟩ := hs
    show (if x.2 ≤ q.2 then q :: insertCount x t else x :: q :: t).filter _ = _
    by_cases hle : x.2 ≤ q.2
    · rw [if_pos hle]
      simp only [List.filter_cons, ih ht]
      by_cases hqk : q.2 = k <;> by_cases hx : x.2 = k <;> simp [hqk, hx]
    · rw [if_neg hle]
      by_cases hx : x.2 = k
      · rw [if_pos hx]
        have hqt : (q :: t).filter (fun p => p.2 = k) = [] := by
          rw [List.filter_eq_nil_iff]
          intro a ha
          rcases List.mem_cons.mp ha with h | h
          · subst h
            simp only [decide_eq_true_eq]
            omega
          · have := hq a h
            simp only [decide_eq_true_eq]
            omega
        rw [List.filter_cons, if_pos (by simp [hx]), hqt]
        rfl
      · rw [if_neg hx]
        rw [List.filter_cons, if_neg (by simp [hx])]

theorem sortDesc_filter_aux (k : Nat) :
    ∀ (l acc : List (String × Nat)),
      List.Sorted (fun a b : String × Nat => b.2 ≤ a.2) acc →
      (l.foldl (fun acc x => insertCount x acc) acc).filter (fun p => p.2 = k) =
        acc.filter (fun p => p.2 = k) ++ l.filter (fun p => p.2 = k) := by
  intro l
  induction l with
  | nil => intro acc _; simp
  | cons x t ih =>
    intro acc hs
    show (t.foldl (fun acc x => insertCount x acc) (insertCount x acc)).filter _ = _
    rw [ih (insertCount x acc) (insertCount_sorted x acc hs),
      filter_insertCount k x acc hs, List.filter_cons]
    by_cases hx : x.2 = k
    · rw [if_pos hx, if_pos (by simp [hx])]
      simp
    · rw [if_neg hx, if_neg (by simp [hx])]

theorem sortDesc_filter_stable (k : Nat) (l : List (String × Nat)) :
    (sortDesc l).filter (fun p => p.2 = k) = l.filter (fun p => p.2 = k) := by
  have := sortDesc_filter_aux k l [] (by simp)
  simpa using this

theorem inner_fold (ws : List (List Char)) :
    ∀ acc : List (String × Nat),
      ws.foldl (fun cs wl =>
        if qualifies (String.mk wl) then bump cs (String.mk wl) else cs) acc =
      ((ws.map String.mk).filter qualifies).foldl bump acc := by
  induction ws with
  | nil => intro acc; rfl
  | cons wl t ih =>
    intro acc
    show t.foldl _ (if qualifies (String.mk wl) then bump acc (String.mk wl) else acc) = _
    rw [List.map_cons, List.filter_cons]
    by_cases hq : qualifies (String.mk wl)
    · rw [if_pos hq, if_pos hq]
      exact ih (bump acc (String.mk wl))
    · rw [if_neg hq, if_neg hq]
      exact ih acc

theorem outer_fold (cs : List String) :
    ∀ acc : List (String × Nat),
      cs.foldl (fun counts c =>
        (tokens c.data).foldl (fun cs wl =>
          if qualifies (String.mk wl) then bump cs (String.mk wl) else cs) counts) acc =
      (cs.foldr (fun c a =>
        ((tokens c.data).map String.mk).filter qualifies ++ a) []).foldl bump acc := by
  induction cs with
  | nil => intro acc; rfl
  | cons c t ih =>
    intro acc
    show t.foldl _ ((tokens c.data).foldl _ acc) = _
    rw [ih ((tokens c.data).foldl _ acc), inner_fold (tokens c.data) acc,
      List.foldr_cons, List.foldl_append]

theorem word_counts_eq (comments : List (Option String)) :
    word_counts comments = (qual_tokens comments).foldl bump [] :=
  outer_fold (comments.filterMap id) []

theorem bump_keys (w : String) :
    ∀ l : List (String × Nat),
      (bump l w).map Prod.fst =
        if w ∈ l.map Prod.fst then l.map Prod.fst else l.map Prod.fst ++ [w] := by
  intro l
  induction l with
  | nil => simp [bump]
  | cons p t ih =>
    obtain ⟨x, n⟩ := p
    show (if x = w then (x, n + 1) :: t else (x, n) :: bump t w).map Prod.fst = _
    by_cases hx : x = w
    · rw [if_pos hx]
      rw [if_pos (by simp [hx])]
      rfl
    · rw [if_neg hx]
      by_cases hw : w ∈ t.map Prod.fst
      · rw [if_pos (by simp [hw])]
        show x :: (bump t w).map Prod.fst = _
        rw [ih, if_pos hw]
        rfl
      · rw [if_neg (by simp [hw, Ne.symm hx])]
        show x :: (bump t w).map Prod.fst = _
        rw [ih, if_neg hw]
        rfl

theorem keys_foldl :
    ∀ (ws : List String) (acc : List (String × Nat)),
      (ws.foldl bump acc).map Prod.fst = addKeys (acc.map Prod.fst) ws := by
  intro ws
  induction ws with
  | nil => intro acc; rfl
  | cons w t ih =>
    intro acc
    show (t.foldl bump (bump acc w)).map Prod.fst = _
    rw [ih (bump acc w), bump_keys w acc]
    show _ = if w ∈ acc.map Prod.fst then addKeys (acc.map Prod.fst) t
      else addKeys (acc.map Prod.fst ++ [w]) t
    by_cases hw : w ∈ acc.map Prod.fst
    · rw [if_pos hw, if_pos hw]
    · rw [if_neg hw, if_neg hw]

theorem word_counts_keys (comments : List (Option String)) :
    (word_counts comments).map Prod.fst = addKeys [] (qual_tokens comments) := by
  rw [word_counts_eq]
  have := keys_foldl (qual_tokens comments) []
  simpa using this

theorem lookup_bump_same (w : String) :
    ∀ l : List (String × Nat), lookupCount (bump l w) w = lookupCount l w + 1 := by
  intro l
  induction l with
  | nil => simp [bump, lookupCount]
  | cons p t ih =>
    obtain ⟨x, n⟩ := p
    show lookupCount (if x = w then (x, n + 1) :: t else (x, n) :: bump t w) w = _
    by_cases hx : x = w
    · rw [if_pos hx]
      show (if x = w then n + 1 else lookupCount t w) = _
      rw [if_pos hx]
      show _ = (if x = w then n else lookupCount t w) + 1
      rw [if_pos hx]
    · rw [if_neg hx]
      show (if x = w then n else lookupCount (bump t w) w) = _
      rw [if_neg hx, ih]
      show _ = (if x = w then n else lookupCount t w) + 1
      rw [if_neg hx]

theorem lookup_bump_other (w v : String) (hvw : v ≠ w) :
    ∀ l : List (String × Nat), lookupCount (bump l w) v = lookupCount l v := by
  intro l
  induction l with
  | nil =>
    show lookupCount [(w, 1)] v = 0
    show (if w = v then 1 else 0) = 0
    rw [if_neg (Ne.symm hvw)]
  | cons p t ih =>
    obtain ⟨x, n⟩ := p
    show lookupCount (if x = w then (x, n + 1) :: t else (x, n) :: bump t w) v = _
    by_cases hx : x = w
    · rw [if_pos hx]
      show (if x = v then n + 1 else lookupCount t v) = (if x = v then n else lookupCount t v)
      rw [if_neg (by rw [hx]; exact Ne.symm hvw), if_neg (by rw [hx]; exact Ne.symm hvw)]
    · rw [if_neg hx]
      show (if x = v then n else lookupCount (bump t w) v) = _
      rw [ih]
      rfl

theorem lookup_foldl :
    ∀ (ws : List String) (acc : List (String × Nat)) (w : String),
      lookupCount (ws.foldl bump acc) w = lookupCount acc w + ws.count w := by
  intro ws
  induction ws with
  | nil => intro acc w; simp [List.count_nil]
  | cons u t ih =>
    intro acc w
    show lookupCount (t.foldl bump (bump acc u)) w = _
    rw [ih (bump acc u) w, List.count_cons]
    by_cases hu : u = w
    · subst hu
      rw [lookup_bump_same u acc]
      simp only [beq_self_eq_true, if_true]
      omega
    · rw [lookup_bump_other u w (Ne.symm hu) acc]
      have : (u == w) = false := by
        simp [hu]
      rw [this]
      simp

theorem addKeys_nodup :
    ∀ (ws ks : List String), ks.Nodup → (addKeys ks ws).Nodup := by
  intro ws
  induction ws with
  | nil => intro ks h; exact h
  | cons w t ih =>
    intro ks h
    show (if w ∈ ks then addKeys ks t else addKeys (ks ++ [w]) t).Nodup
    by_cases hw : w ∈ ks
    · rw [if_pos hw]
      exact ih ks h
    · rw [if_neg hw]
      refine ih (ks ++ [w]) ?_
      rw [List.nodup_append]
      refine ⟨h, List.nodup_singleton w, ?_⟩
      intro a ha haw
      rw [List.mem_singleton] at haw
      subst haw
      exact hw ha

theorem mem_lookup :
    ∀ (l : List (String × Nat)) (w : String) (k : Nat),
      (l.map Prod.fst).Nodup → (w, k) ∈ l → lookupCount l w = k := by
  intro l
  induction l with
  | nil => intro w k _ hm; cases hm
  | cons p t ih =>
    intro w k hnd hm
    obtain ⟨x, n⟩ := p
    rw [List.map_cons, List.nodup_cons] at hnd
    obtain ⟨hx, hndt⟩ := hnd
    show (if x = w then n else lookupCount t w) = k
    rcases List.mem_cons.mp hm with h | h
    · have hw : x = w := by cases h; rfl
      have hn : n = k := by cases h; rfl
      rw [if_pos hw, hn]
    · by_cases hxw : x = w
      · exfalso
        subst hxw
        exact hx (by simpa using List.mem_map_of_mem Prod.fst h)
      · rw [if_neg hxw]
        exact ih w k hndt h

theorem word_counts_nodup_keys (comments : List (Option String)) :
    ((word_counts comments).map Prod.fst).Nodup := by
  rw [word_counts_keys]
  exact addKeys_nodup (qual_tokens comments) [] List.nodup_nil

theorem word_counts_counts (comments : List (Option String)) (w : String) (k : Nat)
    (hm : (w, k) ∈ word_counts comments) : k = (qual_tokens comments).count w := by
  have h1 := mem_lookup (word_counts comments) w k (word_counts_nodup_keys comments) hm
  rw [word_counts_eq] at h1
  rw [lookup_foldl (qual_tokens comments) [] w] at h1
  show k = List.count w (qual_tokens comments)
  have h0 : lookupCount [] w = 0 := rfl
  omega

theorem top_words_eq (comments : List (Option String)) (n : Nat) :
    top_words comments n =
      (((sortDesc (word_counts comments)).take n).map Prod.fst,
       ((sortDesc (word_counts comments)).take n).map Prod.snd) := by
  unfold top_words
  by_cases h : (sortDesc (word_counts comments)).take n = []
  · rw [if_pos h, h]
    rfl
  · rw [if_neg h]

/-- Claim C5: `top_words` returns at most `n` word/count pairs (the script
uses the default 12), ordered by count descending; ties among equal counts
keep first-encountered order — the sort is stable over the insertion-ordered
counts dict, whose keys are in first-occurrence order of the qualifying
token stream and whose values are that stream's occurrence counts — and when
no qualifying token exists the result is the empty pair of sequences. -/
theorem top_words_spec :
    ∀ (comments : List (Option String)) (n : Nat),
      (top_words comments n).1.length ≤ n ∧
      (top_words comments n).2.length ≤ n ∧
      List.Sorted (fun a b : Nat => b ≤ a) (top_words comments n).2 ∧
      (∀ k : Nat, (sortDesc (word_counts comments)).filter (fun p => p.2 = k) =
        (word_counts comments).filter (fun p => p.2 = k)) ∧
      (word_counts comments).map Prod.fst = addKeys [] (qual_tokens comments) ∧
      (∀ (w : String) (k : Nat), (w, k) ∈ word_counts comments →
        k = (qual_tokens comments).count w) ∧
      (qual_tokens comments = [] → top_words comments n = ([], [])) := by
  intro comments n
  refine ⟨?_, ?_, ?_, ?_, word_counts_keys comments,
    word_counts_counts comments, ?_⟩
  · rw [top_words_eq]
    simp only [List.length_map]
    exact List.length_take_le n _
  · rw [top_words_eq]
    simp only [List.length_map]
    exact List.length_take_le n _
  · rw [top_words_eq]
    have hs : List.Sorted (fun a b : String × Nat => b.2 ≤ a.2)
        ((sortDesc (word_counts comments)).take n) :=
      List.Pairwise.sublist (List.take_sublist n _)
        (sortDesc_sorted (word_counts comments))
    exact List.Pairwise.map Prod.snd (fun a b h => h) hs
  · intro k
    exact sortDesc_filter_stable k (word_counts comments)
  · intro hqt
    have hwc : word_counts comments = [] := by
      have hk := word_counts_keys comments
      rw [hqt] at hk
      exact List.map_eq_nil_iff.mp hk
    have h2 : (sortDesc (word_counts comments)).take n = [] := by
      rw [hwc]
      exact List.take_nil
    simp [top_words, h2]

/-- Witness for claim C5 at a concrete input: `["the a"]` has no qualifying
token (`"the"` is a stopword, `"a"` is too short), so the result is the
empty pair; the length bound also holds there. -/
theorem top_words_spec_witness :
    top_words [some "the a"] 12 = ([], []) ∧
    (top_words [some "the a"] 12).1.length ≤ 12 :=
  ⟨(top_words_spec [some "the a"] 12).2.2.2.2.2.2 (by decide),
   (top_words_spec [some "the a"] 12).1⟩

/-! ### Narrative word-count bounds -/

set_option maxRecDepth 200000

theorem peelA (lit rest : List Char) (k M : Nat) (hk : wc lit = k)
    (h : M ≤ wc rest) : k + M ≤ wc (lit ++ ([' '] ++ rest)) := by
  have he : lit ++ ([' '] ++ rest) = lit ++ ' ' :: rest := rfl
  rw [he, wc_sep, hk]
  omega

theorem peelA2 (lit rest : List Char) (k M : Nat) (hk : wc lit = k)
    (h : M ≤ wc rest) : k + M ≤ wc ((lit ++ [' ']) ++ rest) := by
  rw [List.append_assoc]
  exact peelA lit rest k M hk h

theorem peelSpA (lit x : List Char) (k M : Nat) (hk : wc lit = k)
    (h : M ≤ wc x) : k + M ≤ wc ((' ' :: (lit ++ [' '])) ++ x) := by
  have he : (' ' :: (lit ++ [' '])) ++ x = ' ' :: (lit ++ ' ' :: x) := by
    rw [List.cons_append, List.append_assoc]
    rfl
  rw [he, wc_space_cons, wc_sep, hk]
  omega

theorem peelDrop (x rest : List Char) (M : Nat) (h : M ≤ wc rest) :
    M ≤ wc (x ++ rest) :=
  le_trans h (wc_ge_right x rest)

theorem peelDrop2 (x y rest : List Char) (M : Nat) (h : M ≤ wc rest) :
    M ≤ wc (x ++ (y ++ rest)) := by
  rw [← List.append_assoc]
  exact peelDrop (x ++ y) rest M h

theorem peelSpA2 (lit d f rest : List Char) (k M : Nat) (hk : wc lit = k)
    (h : M ≤ wc rest) :
    k + M ≤ wc (((' ' :: (lit ++ [' '])) ++ d) ++ (f ++ rest)) := by
  rw [List.append_assoc]
  exact peelSpA lit (d ++ (f ++ rest)) k M hk (peelDrop2 d f rest M h)

theorem wc_p1_ge (nrec base : Nat) (avgR avgT medT : Q) :
    39 ≤ wc (p1txt nrec base avgR avgT medT) := by
  unfold p1txt
  rw [show ("This dashboard combines ".data : List Char) =
      "This dashboard combines".data ++ [' '] from rfl]
  rw [show (" feedback records (out of ".data : List Char) =
      ' ' :: ("feedback records (out of".data ++ [' ']) from rfl]
  rw [show (" total). The filtered view currently shows an average rating of ".data :
      List Char) =
      ' ' :: ("total). The filtered view currently shows an average rating of".data ++
        [' ']) from rfl]
  rw [show (" out of 5 with mean spend of \\$".data : List Char) =
      (' ' :: ("out of 5 with mean spend of".data ++ [' '])) ++ "\\$".data from rfl]
  rw [show (" and median spend of \\$".data : List Char) =
      (' ' :: ("and median spend of".data ++ [' '])) ++ "\\$".data from rfl]
  refine peelA2 _ _ 3 36 (by decide) ?_
  refine peelDrop _ _ _ ?_
  refine peelSpA _ _ 4 32 (by decide) ?_
  refine peelDrop _ _ _ ?_
  refine peelSpA _ _ 10 22 (by decide) ?_
  refine peelDrop _ _ _ ?_
  refine peelSpA2 _ _ _ _ 7 15 (by decide) ?_
  refine peelSpA2 _ _ _ _ 4 11 (by decide) ?_
  exact le_of_eq (by decide : wc
    ", anchoring both satisfaction and revenue outcomes for the same customers.".data
      = 11).symm

theorem wc_p2_ge (df : List Record) : 50 ≤ wc (p2txt df) := by
  unfold p2txt
  rw [show ("Locations with enough feedback reveal variation worth attention: the current top performer on satisfaction is ".data : List Char) =
      "Locations with enough feedback reveal variation worth attention: the current top performer on satisfaction is".data ++ [' '] from rfl]
  rw [show (" is the laggard. Ratings and spend move together modestly, suggesting experience improvements can drive ticket size. ".data : List Char) =
      ' ' :: ("is the laggard. Ratings and spend move together modestly, suggesting experience improvements can drive ticket size.".data ++ [' ']) from rfl]
  refine peelA2 _ _ 15 35 (by decide) ?_
  refine peelDrop _ _ _ ?_
  refine peelDrop2 _ _ _ _ ?_
  refine peelSpA _ _ 16 19 (by decide) ?_
  refine peelDrop _ _ _ ?_
  exact le_of_eq (by decide : wc
    " show the highest average ticket in this filtered view; scheduling stronger teams there could lift both throughput and sentiment.".data
      = 19).symm

theorem wc_p3_ge (ws : List String) : 44 ≤ wc (p3txt ws) := by
  unfold p3txt
  rw [show ("Comments emphasise themes such as ".data : List Char) =
      "Comments emphasise themes such as".data ++ [' '] from rfl]
  refine peelA2 _ _ 5 39 (by decide) ?_
  refine peelDrop _ _ _ ?_
  exact le_of_eq (by decide : wc
    ". Positive clusters point to friendly staff and coffee quality, while repeat mentions of price or speed hint at friction moments. We also track rating distribution and spend by rating, plus daily trends to spot momentum rather than snapshots.".data
      = 39).symm

theorem wc_composed_eq (df : List Record) (base_len : Nat) (ws : List String) :
    wc (composed df base_len ws) =
      wc (p1txt df.length base_len (meanQ (df.map Record.rating))
        (meanQ (df.map Record.value)) (medianQ (df.map Record.value))) +
      (wc (p2txt df) + (wc (p3txt ws) + wc p4txt)) := by
  show wc (p1txt df.length base_len (meanQ (df.map Record.rating))
    (meanQ (df.map Record.value)) (medianQ (df.map Record.value)) ++
    ' ' :: (p2txt df ++ ' ' :: (p3txt ws ++ ' ' :: p4txt))) = _
  rw [wc_sep, wc_sep, wc_sep]

theorem wc_composed_ge (df : List Record) (base_len : Nat) (ws : List String) :
    217 ≤ wc (composed df base_len ws) := by
  rw [wc_composed_eq]
  have h1 := wc_p1_ge df.length base_len (meanQ (df.map Record.rating))
    (meanQ (df.map Record.value)) (medianQ (df.map Record.value))
  have h2 := wc_p2_ge df
  have h3 := wc_p3_ge ws
  have h4 : wc p4txt = 84 := by decide
  omega

theorem wc_truncate (l : List Char) (h : 400 < wc l) :
    wc (joinWords ((runs wordc l).take 400)) = 400 := by
  unfold wc
  rw [runs_joinWords wordc rfl ((runs wordc l).take 400)
    (fun w hw => runs_mem wordc l w (List.take_subset 400 _ hw))]
  rw [List.length_take]
  unfold wc at h
  exact Nat.min_eq_left (by omega)

theorem wc_filler_append (l : List Char) :
    wc (l ++ " ".data ++ filler) = wc l + 42 := by
  rw [List.append_assoc]
  have he : (" ".data : List Char) ++ filler = ' ' :: filler := rfl
  rw [he, wc_sep]
  have hf : wc filler = 42 := by decide
  omega

/-- Claim C2: for every input with a positive base count and at least one
record, the narrative built by `build_narrative` has a whitespace-split word
count within [250, 400] inclusive. -/
theorem build_narrative_word_count :
    ∀ (df : List Record) (base_len : Nat) (ws : List String),
      df ≠ [] → 0 < base_len →
      250 ≤ wc (build_narrative df base_len ws) ∧
      wc (build_narrative df base_len ws) ≤ 400 := by
  intro df base_len ws _ _
  have hge := wc_composed_ge df base_len ws
  by_cases h1 : 400 < wc (composed df base_len ws)
  · have he : build_narrative df base_len ws =
        joinWords ((runs wordc (composed df base_len ws)).take 400) := by
      simp only [build_narrative]
      rw [if_pos h1]
    rw [he, wc_truncate _ h1]
    omega
  · by_cases h2 : wc (composed df base_len ws) < 250
    · have he : build_narrative df base_len ws =
          composed df base_len ws ++ " ".data ++ filler := by
        simp only [build_narrative]
        rw [if_neg h1, if_pos h2]
      rw [he, wc_filler_append]
      omega
    · have he : build_narrative df base_len ws = composed df base_len ws := by
        simp only [build_narrative]
        rw [if_neg h1, if_neg h2]
      rw [he]
      omega

/-- Witness for claim C2: a one-record input with base count 1 yields a
narrative within the 250-400 word range. -/
theorem build_narrative_word_count_witness :
    250 ≤ wc (build_narrative
        [⟨"Main St", ⟨4, 1⟩, ⟨10, 1⟩, some "Monday", some 1, some "ok"⟩] 1 []) ∧
    wc (build_narrative
        [⟨"Main St", ⟨4, 1⟩, ⟨10, 1⟩, some "Monday", some 1, some "ok"⟩] 1 []) ≤ 400 :=
  build_narrative_word_count
    [⟨"Main St", ⟨4, 1⟩, ⟨10, 1⟩, some "Monday", some 1, some "ok"⟩] 1 []
    (by simp) (by decide)

/-- Claim C4: if the composed template text exceeds 400 words the result is
exactly its first 400 words rejoined with single spaces (no ellipsis); if it
is under 250 words the fixed filler paragraph is appended — and nothing
re-checks the 400 cap afterwards, the result is exactly the concatenation,
42 filler words longer; otherwise the text is returned unchanged. -/
theorem build_narrative_length_adjust :
    ∀ (df : List Record) (base_len : Nat) (ws : List String),
      (400 < wc (composed df base_len ws) →
        build_narrative df base_len ws =
          joinWords ((runs wordc (composed df base_len ws)).take 400) ∧
        wc (build_narrative df base_len ws) = 400) ∧
      (wc (composed df base_len ws) < 250 →
        build_narrative df base_len ws =
          composed df base_len ws ++ " ".data ++ filler ∧
        wc (build_narrative df base_len ws) =
          wc (composed df base_len ws) + 42) ∧
      (250 ≤ wc (composed df base_len ws) → wc (composed df base_len ws) ≤ 400 →
        build_narrative df base_len ws = composed df base_len ws) := by
  intro df base_len ws
  refine ⟨?_, ?_, ?_⟩
  · intro h1
    have he : build_narrative df base_len ws =
        joinWords ((runs wordc (composed df base_len ws)).take 400) := by
      simp only [build_narrative]
      rw [if_pos h1]
    exact ⟨he, by rw [he, wc_truncate _ h1]⟩
  · intro h2
    have he : build_narrative df base_len ws =
        composed df base_len ws ++ " ".data ++ filler := by
      simp only [build_narrative]
      rw [if_neg (by omega : ¬400 < wc (composed df base_len ws)), if_pos h2]
    exact ⟨he, by rw [he, wc_filler_append]⟩
  · intro hge hle
    simp only [build_narrative]
    rw [if_neg (by omega : ¬400 < wc (composed df base_len ws)),
      if_neg (by omega : ¬wc (composed df base_len ws) < 250)]

/-- Witness for claim C4: on a one-record input the composed text is under
250 words, and the result is exactly the composed text with the filler
appended (42 words longer, no truncation re-check). -/
theorem build_narrative_length_adjust_witness :
    build_narrative
        [⟨"Main St", ⟨4, 1⟩, ⟨10, 1⟩, some "Monday", some 1, some "ok"⟩] 1 [] =
      composed
        [⟨"Main St", ⟨4, 1⟩, ⟨10, 1⟩, some "Monday", some 1, some "ok"⟩] 1 [] ++
        " ".data ++ filler ∧
    wc (build_narrative
        [⟨"Main St", ⟨4, 1⟩, ⟨10, 1⟩, some "Monday", some 1, some "ok"⟩] 1 []) =
      wc (composed
        [⟨"Main St", ⟨4, 1⟩, ⟨10, 1⟩, some "Monday", some 1, some "ok"⟩] 1 []) + 42 :=
  (build_narrative_length_adjust
    [⟨"Main St", ⟨4, 1⟩, ⟨10, 1⟩, some "Monday", some 1, some "ok"⟩] 1 []).2.1
    (by decide)
